import Mathlib

/-!
The package `yaml/inject` of drone-exec.

A shallow embedding of `src/yaml/inject/inject.go` (`Inject`, `InjectSafe`, `parse`) and the
properties of the injection specification that are checked against it.

* Go strings are sequences of bytes (`GoString`).
* A Go `map[string]string` is `Params`: the nil map, or the entries in the order in which
  `range` enumerates them (Go leaves that order unspecified).
* What `inject.go` takes from libraries (`yaml.Unmarshal`, `yaml.Marshal`, `fmt.Sprintf("%v", _)`,
  `strings.ToLower`) is a parameter, `Extern`.
* The package variable `substitutors` is declared in another file of the package; `Inject` takes
  the list as a parameter, and `specSubstitutors` models it from the specification.
-/

namespace DroneExec

/-! ## Strings -/

/-- A Go string: a sequence of bytes. -/
abbrev GoString := List Nat

/-- The bytes of an ASCII literal. -/
def str (s : String) : GoString := s.toList.map Char.toNat

/-- Go's `<` on strings (`sort.StringSlice.Less`): byte-wise lexicographic comparison. -/
def strLess : GoString → GoString → Bool
  | [], [] => false
  | [], _ :: _ => true
  | _ :: _, [] => false
  | a :: as, b :: bs => if a < b then true else if a = b then strLess as bs else false

/-- The result of `sort.Sort(sort.Reverse(sort.StringSlice(keys)))`: the keys ordered so that no
element is `Less` than a later one under the reversed comparison `Less(i, j) = keys[j] < keys[i]`. -/
def sortReverse (keys : List GoString) : List GoString :=
  keys.insertionSort (fun a b => strLess a b = false)

/-! ## Maps -/

/-- A Go `map[string]string`. `none` is the nil map; `some es` is a map whose `range` loop
yields the entries `es` in that order. The keys of a map are pairwise distinct. -/
abbrev Params := Option (List (GoString × GoString))

/-- The entries a `range` loop over the map visits (none for the nil map). -/
def Params.entries : Params → List (GoString × GoString)
  | none => []
  | some es => es

/-- Go's `len(params)`. -/
def Params.len (params : Params) : Nat := params.entries.length

/-- Go's `params[k]`: the value bound to `k`, the zero value `""` when `k` is unbound. -/
def Params.index (params : Params) (k : GoString) : GoString :=
  match params.entries.find? (fun e => decide (e.1 = k)) with
  | some e => e.2
  | none => []

/-- The guard `params == nil || len(params) == 0` (inject.go:17 and :43). -/
def Params.isEmpty (params : Params) : Bool := params.isNone || params.len == 0

/-- The keys of a map are pairwise distinct. -/
def Params.WF (params : Params) : Prop := (params.entries.map Prod.fst).Nodup

/-! ## Inject -/

/-- The type `substitutor`: `func(str, key, val string) string`. -/
abbrev Substitutor := GoString → GoString → GoString → GoString

/-- The loop of inject.go:20-23: collect the keys in enumeration order. -/
def collectKeys (params : Params) : List GoString :=
  params.entries.foldl (fun keys e => keys ++ [e.1]) []

/-- `Inject` (inject.go:16-34), over the package's list of substitutors. -/
def Inject (substitutors : List Substitutor) (raw : GoString) (params : Params) : GoString :=
  if params.isEmpty then raw
  else
    let keys := sortReverse (collectKeys params)
    keys.foldl
      (fun injected k =>
        let v := params.index k
        substitutors.foldl (fun injected substitute => substitute injected k v) injected)
      raw

/-! ## The specification's reading of the resolution order -/

/-- Specification, §4.1: all occurrence forms of one key, i.e. every substitutor of the list in
list order, each on the text the previous one left. -/
def applySubstitutors : List Substitutor → GoString → GoString → GoString → GoString
  | [], text, _, _ => text
  | s :: rest, text, k, v => applySubstitutors rest (s text k v) k v

/-- Specification, §4.1: the keys one at a time, each fully applied to the then-current text
before the next key is looked at. -/
def applyKeys (substitutors : List Substitutor) (params : Params) :
    List GoString → GoString → GoString
  | [], text => text
  | k :: rest, text =>
    applyKeys substitutors params rest (applySubstitutors substitutors text k (params.index k))

/-- The keys whose passes `Inject` runs before those of the key `NAME`: the sorted keys that
are greater than `NAME`, in their order. -/
def keysBefore (params : Params) (NAME : GoString) : List GoString :=
  (sortReverse (collectKeys params)).filter (fun k => strLess NAME k)

/-- The keys whose passes `Inject` runs behind those of the key `NAME`: the sorted keys that
are smaller than `NAME`, in their order. -/
def keysBehind (params : Params) (NAME : GoString) : List GoString :=
  (sortReverse (collectKeys params)).filter (fun k => strLess k NAME)

/-- Specification, §4.1, "the then-current text": the text when the turn of the key `NAME`
comes, the passes of the keys before `NAME` applied. -/
def textAtTurn (substitutors : List Substitutor) (params : Params) (NAME text : GoString) :
    GoString :=
  applyKeys substitutors params (keysBefore params NAME) text

/-- The passes of the key `NAME` and, behind them, those of the keys behind `NAME`. -/
def passesFrom (substitutors : List Substitutor) (params : Params) (NAME text : GoString) :
    GoString :=
  applyKeys substitutors params (NAME :: keysBehind params NAME) text

/-- Specification, §4.1: `ks` lists the keys of `params` in descending lexicographic order:
every key exactly as often as the map holds it, each key byte-wise greater than all later ones. -/
def DescendingKeys (params : Params) (ks : List GoString) : Prop :=
  ks.Perm (params.entries.map Prod.fst) ∧ ks.Pairwise (fun a b => strLess b a = true)

/-! ## InjectSafe -/

/-- A `yaml.MapItem`: a key and a value, both of interface type (here `ι`). -/
structure MapItem (ι : Type) where
  Key : ι
  Value : ι
deriving DecidableEq

/-- A `yaml.MapSlice`: the entries of a mapping, in document order. -/
abbrev MapSlice (ι : Type) := List (MapItem ι)

/-- What inject.go calls in libraries. `Unmarshal raw` is the pair `(dat, err)` that
`yaml.Unmarshal([]byte(raw), &dat)` leaves for a fresh `dat`; `Marshal` is `yaml.Marshal` with
its bytes and its error; `Sprintv` is `fmt.Sprintf("%v", _)`; `ToLower` is `strings.ToLower`. -/
structure Extern (ι ε : Type) where
  Unmarshal : GoString → MapSlice ι × Option ε
  Marshal : MapSlice ι → GoString × Option ε
  Sprintv : ι → GoString
  ToLower : GoString → GoString

/-- The function `parse` (inject.go:79-83). -/
def parse {ι ε : Type} (x : Extern ι ε) (raw : GoString) : MapSlice ι × Option ε :=
  x.Unmarshal raw

/-- The test of inject.go:57-59 and :63-65: the key, printed with `%v` and lower-cased,
is `"build"`. -/
def isBuild {ι ε : Type} (x : Extern ι ε) (v : MapItem ι) : Bool :=
  decide (x.ToLower (x.Sprintv v.Key) = str "build")

/-- The inner loop (inject.go:62-67) over the remaining entries of `before`: every build-keyed
entry `vv` is stored at `after[i]`. There is no `break`. -/
def replaceLoop {ι ε : Type} (x : Extern ι ε) (i : Nat) :
    List (MapItem ι) → MapSlice ι → MapSlice ι
  | [], after => after
  | vv :: rest, after =>
    replaceLoop x i rest (if isBuild x vv then after.set i vv else after)

/-- The outer loop (inject.go:56-71) at index `i` with the entries from `i` on still to visit:
at the first build-keyed entry the inner loop runs and the loop ends with `break`. -/
def bindLoop {ι ε : Type} (x : Extern ι ε) (before after : MapSlice ι) :
    Nat → List (MapItem ι) → MapSlice ι
  | _, [] => after
  | i, v :: rest =>
    if isBuild x v then replaceLoop x i before after
    else bindLoop x before after (i + 1) rest

/-- The slice `after` as inject.go:56-71 leaves it. -/
def bindBuild {ι ε : Type} (x : Extern ι ε) (before after : MapSlice ι) : MapSlice ι :=
  bindLoop x before after 0 after

/-- `InjectSafe` (inject.go:42-74): the returned string and error. -/
def InjectSafe {ι ε : Type} (x : Extern ι ε) (substitutors : List Substitutor)
    (raw : GoString) (params : Params) : GoString × Option ε :=
  if params.isEmpty then (raw, none)
  else
    match parse x raw with
    | (_, some err) => (raw, some err)
    | (before, none) =>
      match parse x (Inject substitutors raw params) with
      | (_, some err) => (raw, some err)
      | (after, none) => x.Marshal (bindBuild x before after)

/-- The slice that `InjectSafe` passes to `yaml.Marshal` at inject.go:72, when the call gets
there (`none` when it returns earlier). -/
def marshalled {ι ε : Type} (x : Extern ι ε) (substitutors : List Substitutor)
    (raw : GoString) (params : Params) : Option (MapSlice ι) :=
  if params.isEmpty then none
  else
    match parse x raw with
    | (_, some _) => none
    | (before, none) =>
      match parse x (Inject substitutors raw params) with
      | (_, some _) => none
      | (after, none) => some (bindBuild x before after)

/-- Specification, §4.2 step 3 and its guarantee: `doc` is `after` with one position changed,
the first build-keyed position `i` of `after`, which holds a build-keyed entry `vv` of `before`;
the length and every other position are those of `after`. -/
def BuildSpliced {ι ε : Type} (x : Extern ι ε) (before after doc : MapSlice ι) : Prop :=
  ∃ (i : Nat) (vv : MapItem ι),
    (∃ v, after[i]? = some v ∧ isBuild x v = true) ∧
    (∀ j v, j < i → after[j]? = some v → isBuild x v = false) ∧
    vv ∈ before ∧ isBuild x vv = true ∧
    doc.length = after.length ∧ doc[i]? = some vv ∧ ∀ j, j ≠ i → doc[j]? = after[j]?

/-! ## The substitutors, from the specification

`substitutors` and the functions it lists are declared outside `inject.go`. -/

/-- Modelled from the spec: part of the substitutors, absent from inject.go.
`stripHead p s` is what follows `p` in `s` when `s` starts with `p`. -/
def stripHead : GoString → GoString → Option GoString
  | [], s => some s
  | _ :: _, [] => none
  | p :: ps, c :: cs => if p = c then stripHead ps cs else none

/-- Modelled from the spec: part of the substitutors, absent from inject.go. §2: the
substitutor "rewrites every recognized `$$`-notation occurrence into its resolved value".
Rewrite the occurrences that `m` recognises, scanning left to right: where `m` recognises
an occurrence at the current position, its replacement is emitted and the scan goes on behind
the occurrence (`skip` counts the bytes of it still to pass); elsewhere the byte is kept. -/
def rewriteAll (m : GoString → Option (GoString × Nat)) : Nat → GoString → GoString
  | _, [] => []
  | skip + 1, _ :: cs => rewriteAll m skip cs
  | 0, c :: cs =>
    match m (c :: cs) with
    | some (rep, n) => rep ++ rewriteAll m (n - 1) cs
    | none => c :: rewriteAll m 0 cs

/-- Modelled from the spec: part of the substitutors, absent from inject.go. §7: "malformed
notation (unbalanced braces, unknown operator) degrades to leaving the offending text
unmodified". The operand of a braced form: the bytes up to the brace that closes the form,
braces inside the operand balanced (`depth` open ones so far); `none` when the form is never
closed. -/
def readOperand : Nat → GoString → Option GoString
  | _, [] => none
  | depth, c :: cs =>
    if c = 125 then
      match depth with
      | 0 => some []
      | d + 1 => (readOperand d cs).map (fun r => c :: r)
    else if c = 123 then (readOperand (depth + 1) cs).map (fun r => c :: r)
    else (readOperand depth cs).map (fun r => c :: r)

/-- Modelled from the spec: part of the substitutors, absent from inject.go.
A braced occurrence `$${NAME<op>OPERAND}` at the start of `s`: the operand is handed to
`f`, which gives the replacement, or `none` when the operand is malformed. -/
def matchBraced (key op : GoString) (f : GoString → Option GoString) (s : GoString) :
    Option (GoString × Nat) :=
  match stripHead (str "$$\x7b" ++ key ++ op) s with
  | none => none
  | some rest =>
    match readOperand 0 rest with
    | none => none
    | some operand =>
      match f operand with
      | none => none
      | some rep => some (rep, 3 + key.length + op.length + operand.length + 1)

/-- Modelled from the spec: part of the substitutors, absent from inject.go.
The value of a string of decimal digits, `none` if a byte is not a digit. -/
def parseDigits : Nat → GoString → Option Nat
  | acc, [] => some acc
  | acc, c :: cs => if 48 ≤ c ∧ c ≤ 57 then parseDigits (10 * acc + (c - 48)) cs else none

/-- Modelled from the spec: part of the substitutors, absent from inject.go.
Newline bytes rendered as the two bytes backslash, `n`. -/
def escapeNewlines : GoString → GoString
  | [] => []
  | c :: cs => if c = 10 then 92 :: 110 :: escapeNewlines cs else c :: escapeNewlines cs

/-- Modelled from the spec: the substitutor for the bare reference, absent from inject.go.
§4.1: "Bare reference: `$$NAME` — replaced by the value bound to `NAME`". -/
def substituteBare : Substitutor := fun text key val =>
  rewriteAll (fun s => (stripHead (str "$$" ++ key) s).map (fun _ => (val, 2 + key.length))) 0 text

/-- Modelled from the spec: the substitutor for quote-aware escaping, absent from inject.go.
§4.1: an occurrence substituted inside a double-quoted literal (`"$$NAME"`, §8 property 4) has
the newline characters of the value escaped to the two-character sequence `\n`. -/
def substituteQuoted : Substitutor := fun text key val =>
  rewriteAll
    (fun s => (stripHead (str "\"$$" ++ key ++ str "\"") s).map
      (fun _ => (str "\"" ++ escapeNewlines val ++ str "\"", 3 + key.length + 1)))
    0 text

/-- Modelled from the spec: the substitutor for the default form, absent from inject.go.
§4.1: "`$${NAME=DEFAULT}` — if `NAME` resolves to a non-empty value, substitute that value;
if `NAME` resolves to the empty string, substitute `DEFAULT` instead"; references nested in
`DEFAULT` stay in the text for the passes that follow. -/
def substituteDefault : Substitutor := fun text key val =>
  rewriteAll
    (matchBraced key (str "=") (fun operand => some (if val = [] then operand else val))) 0 text

/-- Modelled from the spec: part of the substitutors, absent from inject.go. §4.1 counts the
value of `$${NAME:N}` in characters. A Go string holds the UTF-8 encoding of its text;
`charWidth s` is the number of bytes of the character at the start of `s`, as
`utf8.DecodeRuneInString` finds it: the length of a well-formed encoding, and 1 for a byte that
starts none (0 for the empty string). -/
def charWidth : GoString → Nat
  | [] => 0
  | b0 :: rest =>
    if 194 ≤ b0 ∧ b0 ≤ 223 then
      match rest with
      | b1 :: _ => if 128 ≤ b1 ∧ b1 ≤ 191 then 2 else 1
      | _ => 1
    else if 224 ≤ b0 ∧ b0 ≤ 239 then
      match rest with
      | b1 :: b2 :: _ =>
        if (if b0 = 224 then 160 else 128) ≤ b1 ∧ b1 ≤ (if b0 = 237 then 159 else 191)
            ∧ 128 ≤ b2 ∧ b2 ≤ 191 then 3 else 1
      | _ => 1
    else if 240 ≤ b0 ∧ b0 ≤ 244 then
      match rest with
      | b1 :: b2 :: b3 :: _ =>
        if (if b0 = 240 then 144 else 128) ≤ b1 ∧ b1 ≤ (if b0 = 244 then 143 else 191)
            ∧ 128 ≤ b2 ∧ b2 ≤ 191 ∧ 128 ≤ b3 ∧ b3 ≤ 191 then 4 else 1
      | _ => 1
    else 1

/-- Modelled from the spec: part of the substitutors, absent from inject.go.
The first `n` characters of a string, the whole string when it has fewer. -/
def takeChars : Nat → GoString → GoString
  | 0, _ => []
  | _ + 1, [] => []
  | n + 1, b :: rest =>
    b :: (rest.take (charWidth (b :: rest) - 1)
      ++ takeChars n (rest.drop (charWidth (b :: rest) - 1)))

/-- The number of characters of a string, counted as `takeChars` takes them (`fuel` bounds the
number of characters). -/
def countChars : Nat → GoString → Nat
  | 0, _ => 0
  | _ + 1, [] => 0
  | fuel + 1, b :: rest => 1 + countChars fuel (rest.drop (charWidth (b :: rest) - 1))

/-- The number of characters of a string. -/
def charLength (s : GoString) : Nat := countChars s.length s

/-- Modelled from the spec: the substitutor for the substring form, absent from inject.go.
§4.1: "`$${NAME:N}` — substitute the first `N` characters of `NAME`'s value (no error if the
value is shorter than `N`; produce the whole value)". -/
def substituteSubstr : Substitutor := fun text key val =>
  rewriteAll
    (matchBraced key (str ":") (fun operand =>
      if operand = [] then none else (parseDigits 0 operand).map (fun n => takeChars n val)))
    0 text

/-- Modelled from the spec: part of the substitutors, absent from inject.go.
`trimHead p v` is `v` without its leading `p` when `v` starts with `p`, and `v` when it does
not. -/
def trimHead (p v : GoString) : GoString :=
  match stripHead p v with
  | some rest => rest
  | none => v

/-- Modelled from the spec: the substitutor for the prefix-strip form, absent from inject.go.
§4.1: "`$${NAME##PREFIX}` — substitute `NAME`'s value with the leading occurrence of literal
`PREFIX` removed if present, else substitute unchanged". -/
def substituteStrip : Substitutor := fun text key val =>
  rewriteAll (matchBraced key (str "##") (fun operand => some (trimHead operand val))) 0 text

/-- Modelled from the spec: the package variable `substitutors`, absent from inject.go. The
forms are those §4.1 enumerates. The specification does not give their order in the list; here
the quote-aware form stands first, as §8 property 4 requires, and the bare form last, behind
the braced forms, so that what a bare reference puts into the text is not read again by the
braced forms of the same key. -/
def specSubstitutors : List Substitutor :=
  [substituteQuoted, substituteDefault, substituteSubstr, substituteStrip, substituteBare]

/-- Specification, §4.1, for one form: `out` is `text` with every occurrence of `pat`, found
left to right, replaced by `rep`, and all other bytes kept. An occurrence is the leftmost one
when `pat` occurs nowhere in the text before the last byte of it. -/
inductive ReplacedAll (pat rep : GoString) : GoString → GoString → Prop
  | done (text : GoString) : ¬ pat <:+: text → ReplacedAll pat rep text text
  | occurrence (head rest out : GoString) :
      ¬ pat <:+: head ++ pat.dropLast → ReplacedAll pat rep rest out →
      ReplacedAll pat rep (head ++ pat ++ rest) (head ++ rep ++ out)

/-! ## A stand-in for the YAML library on flat documents

Used to run `InjectSafe` on concrete documents: a document of lines `key: value` with plain
scalars, for which `yaml.Unmarshal` gives one `MapItem` per line and `yaml.Marshal` prints one
line per entry. -/

/-- The one error of the stand-in. -/
inductive YamlError where
  | cannotUnmarshal
deriving DecidableEq

/-- The lines of a text. -/
def splitLines : GoString → List GoString
  | [] => [[]]
  | c :: cs =>
    if c = 10 then [] :: splitLines cs
    else
      match splitLines cs with
      | [] => [[c]]
      | l :: ls => (c :: l) :: ls

/-- One line `key: value`, split at the first colon that a blank follows. -/
def splitEntry : GoString → Option (MapItem GoString)
  | [] => none
  | c :: cs =>
    if c = 58 ∧ cs.head? = some 32 then some ⟨[], cs.tail⟩
    else (splitEntry cs).map (fun e => ⟨c :: e.Key, e.Value⟩)

/-- Every non-empty line as an entry, or the error when a line is not of the form. -/
def flatUnmarshal (raw : GoString) : MapSlice GoString × Option YamlError :=
  match ((splitLines raw).filter (fun l => !l.isEmpty)).mapM splitEntry with
  | some doc => (doc, none)
  | none => ([], some YamlError.cannotUnmarshal)

/-- One line `key: value` per entry. -/
def flatMarshal (doc : MapSlice GoString) : GoString × Option YamlError :=
  ((doc.map (fun e => e.Key ++ str ": " ++ e.Value ++ str "\n")).flatten, none)

/-- `strings.ToLower` on ASCII text. -/
def asciiLower (s : GoString) : GoString :=
  s.map (fun c => if 65 ≤ c ∧ c ≤ 90 then c + 32 else c)

/-- The stand-in: keys and values are strings, `%v` prints a string as it is. -/
def flatYaml : Extern GoString YamlError where
  Unmarshal := flatUnmarshal
  Marshal := flatMarshal
  Sprintv := fun k => k
  ToLower := asciiLower

/-! ## Occurrences of the braced forms, for the specification of the operators -/

/-- Specification, §3: "keys are variable names". A name is not empty and holds none of the
bytes the notation is written with: `$`, `{`, `}`, `"`, `=`, `:`, `#`. -/
def IsName (k : GoString) : Prop :=
  k ≠ [] ∧ ∀ b ∈ k, b ∉ [36, 123, 125, 34, 61, 58, 35]

/-- The text holds no reference to the key `k`: neither `$$k`, with which the bare and the
quoted form are written, nor `$${k`, with which the braced forms begin. -/
def Unreferenced (k text : GoString) : Prop :=
  ¬ str "$$" ++ k <:+: text ∧ ¬ str "$$\x7b" ++ k <:+: text

/-- The number of braces open after `text`, starting with `depth` open ones; `none` when a
closing brace comes with none open. -/
def braceDepth : Nat → GoString → Option Nat
  | depth, [] => some depth
  | depth, c :: cs =>
    if c = 125 then
      match depth with
      | 0 => none
      | d + 1 => braceDepth d cs
    else if c = 123 then braceDepth (depth + 1) cs
    else braceDepth depth cs

/-- The braces of an operand are balanced: each closing brace closes one opened in the operand,
and none stays open. -/
def Balanced (operand : GoString) : Prop := braceDepth 0 operand = some 0

/-- The digits of `n` in front of `acc`, most significant first (`fuel` bounds the number of
digits). -/
def decimalDigits : Nat → Nat → GoString → GoString
  | 0, _, acc => acc
  | fuel + 1, n, acc =>
    if n < 10 then (n + 48) :: acc else decimalDigits fuel (n / 10) ((n % 10 + 48) :: acc)

/-- The decimal numeral of `n`, as written for `N` in `$${NAME:N}`. -/
def decimal (n : Nat) : GoString := decimalDigits (n + 1) n []

/-- The braced occurrence `$${NAME<op>OPERAND}` as it stands in a text. -/
def braced (NAME op operand : GoString) : GoString :=
  str "$$\x7b" ++ NAME ++ op ++ operand ++ str "\x7d"

/-- The quoted occurrence `"$$NAME"` as it stands in a text. -/
def quoted (NAME : GoString) : GoString := str "\"$$" ++ NAME ++ str "\""

instance decidableIsName (k : GoString) : Decidable (IsName k) := by
  unfold IsName
  infer_instance

instance decidableUnreferenced (k text : GoString) : Decidable (Unreferenced k text) := by
  unfold Unreferenced
  infer_instance

instance decidableBalanced (operand : GoString) : Decidable (Balanced operand) := by
  unfold Balanced
  infer_instance

instance decidableWF (params : Params) : Decidable params.WF := by
  unfold Params.WF
  infer_instance

/-- No occurrence of the pattern `p` begins in `W`, however the text goes on behind `W`: no
non-empty end of `W` is a beginning of `p`, and none begins with `p`. -/
def Clear (p W : GoString) : Prop := ∀ s, s ≠ [] → s <:+ W → ¬ s <+: p ∧ ¬ p <+: s

/-- The text `W` holds no reference to the key `k`, complete or begun at its end: no `$$k` and
no `$${k` begins in `W`, however the text goes on behind `W`. -/
def NoReference (k W : GoString) : Prop :=
  Clear (str "$$" ++ k) W ∧ Clear (str "$$\x7b" ++ k) W

/-- The text `W`, with `post` behind it, is out of reach of the passes of the keys `keys`: it
holds no reference to one of them, and where it ends in `"` the text behind it does not
begin with `$`. -/
def Settled (keys : List GoString) (W post : GoString) : Prop :=
  (∀ k ∈ keys, NoReference k W) ∧ (W.getLast? = some 34 → post.head? ≠ some 36)

instance decidableClear (p W : GoString) : Decidable (Clear p W) :=
  decidable_of_iff (∀ s ∈ W.tails, s ≠ [] → ¬ s <+: p ∧ ¬ p <+: s)
    ⟨fun h s hs hsuf => h s ((List.mem_tails s W).mpr hsuf) hs,
      fun h s hmem hs => h s hs ((List.mem_tails s W).mp hmem)⟩

instance decidableNoReference (k W : GoString) : Decidable (NoReference k W) := by
  unfold NoReference
  infer_instance

instance decidableSettled (keys : List GoString) (W post : GoString) :
    Decidable (Settled keys W post) := by
  unfold Settled
  infer_instance

/-! # Theorems -/

/-! ## The order on strings -/

theorem strLess_irrefl (a : GoString) : strLess a a = false := by
  induction a with
  | nil => rfl
  | cons x xs ih => simp [strLess, ih]

theorem strLess_connex (a b : GoString) :
    strLess a b = false → strLess b a = false → a = b := by
  induction a generalizing b with
  | nil => cases b <;> simp [strLess]
  | cons x xs ih =>
    cases b with
    | nil => simp [strLess]
    | cons y ys =>
      simp only [strLess]
      rcases Nat.lt_trichotomy x y with h | h | h
      · simp [h]
      · subst h; simp; exact ih ys
      · have h1 : ¬ x < y := by omega
        have h2 : ¬ x = y := by omega
        simp [h1, h2, h]

theorem strLess_trans (a b c : GoString) :
    strLess a b = true → strLess b c = true → strLess a c = true := by
  induction a generalizing b c with
  | nil => cases b <;> cases c <;> simp [strLess]
  | cons x xs ih =>
    cases b with
    | nil => simp [strLess]
    | cons y ys =>
      cases c with
      | nil => simp [strLess]
      | cons z zs =>
        simp only [strLess]
        intro h1 h2
        split_ifs at h1 h2 with p1 p2 p3 p4 p5 p6 <;> split_ifs <;> first
          | rfl | omega | (subst_vars; exact ih _ _ h1 h2)

theorem strLess_asymm (a b : GoString) (h : strLess a b = true) : strLess b a = false := by
  cases hba : strLess b a with
  | false => rfl
  | true =>
    have := strLess_trans a b a h hba
    rw [strLess_irrefl] at this
    exact absurd this (by decide)

/-- Being byte-wise greater or equal is a total preorder, and antisymmetric. -/
theorem geStr_total : IsTotal GoString (fun a b => strLess a b = false) :=
  ⟨fun a b => by
    cases hab : strLess a b with
    | false => exact Or.inl rfl
    | true => exact Or.inr (strLess_asymm a b hab)⟩

theorem geStr_trans : IsTrans GoString (fun a b => strLess a b = false) :=
  ⟨fun a b c hab hbc => by
    cases hac : strLess a c with
    | false => rfl
    | true =>
      cases hba : strLess b a with
      | false =>
        have := strLess_connex a b hab hba
        subst this
        rw [hbc] at hac
        exact absurd hac (by decide)
      | true =>
        have := strLess_trans b a c hba hac
        rw [hbc] at this
        exact absurd this (by decide)⟩

theorem geStr_antisymm : IsAntisymm GoString (fun a b => strLess a b = false) :=
  ⟨fun a b hab hba => strLess_connex a b hab hba⟩

/-- A proper prefix is byte-wise less than the string it starts. -/
theorem strLess_of_proper_head (a b : GoString) (h : a <+: b) (hne : a ≠ b) :
    strLess a b = true := by
  induction a generalizing b with
  | nil =>
    cases b with
    | nil => exact absurd rfl hne
    | cons y ys => rfl
  | cons x xs ih =>
    cases b with
    | nil => simp at h
    | cons y ys =>
      rw [List.cons_prefix_cons] at h
      obtain ⟨hxy, hp⟩ := h
      subst hxy
      have : xs ≠ ys := fun e => hne (by rw [e])
      simp [strLess, ih ys hp this]

/-! ## The sorted keys -/

theorem collectKeys_eq (params : Params) : collectKeys params = params.entries.map Prod.fst := by
  unfold collectKeys
  suffices h : ∀ (es : List (GoString × GoString)) (acc : List GoString),
      es.foldl (fun keys e => keys ++ [e.1]) acc = acc ++ es.map Prod.fst by
    simpa using h params.entries []
  intro es
  induction es with
  | nil => simp
  | cons e es ih => intro acc; simp [ih]

theorem sortReverse_perm (keys : List GoString) : (sortReverse keys).Perm keys :=
  List.perm_insertionSort _ keys

theorem sortReverse_sorted (keys : List GoString) :
    (sortReverse keys).Sorted (fun a b => strLess a b = false) :=
  @List.sorted_insertionSort _ (fun a b => strLess a b = false) _ geStr_total geStr_trans keys

/-- Any list that is a permutation of the keys and descending is the list `Inject` iterates. -/
theorem sortReverse_unique (keys ks : List GoString) (hp : ks.Perm keys)
    (hs : ks.Pairwise (fun a b => strLess b a = true)) : sortReverse keys = ks := by
  have hs2 : ks.Sorted (fun a b => strLess a b = false) :=
    List.Pairwise.imp (fun {a b} h => strLess_asymm b a h) hs
  exact @List.eq_of_perm_of_sorted _ (fun a b => strLess a b = false) geStr_antisymm _ _
    ((sortReverse_perm keys).trans hp.symm) (sortReverse_sorted keys) hs2

/-- For a map (distinct keys) the sorted keys are strictly descending. -/
theorem sortReverse_descending (keys : List GoString) (hnd : keys.Nodup) :
    (sortReverse keys).Pairwise (fun a b => strLess b a = true) := by
  have hnd2 : (sortReverse keys).Nodup := (sortReverse_perm keys).nodup_iff.mpr hnd
  have hs := sortReverse_sorted keys
  have := List.Pairwise.and hs hnd2
  refine List.Pairwise.imp ?_ this
  intro a b ⟨h1, h2⟩
  cases hba : strLess b a with
  | true => rfl
  | false => exact absurd (strLess_connex a b h1 hba) h2

theorem descendingKeys_sortReverse (params : Params) (hwf : params.WF) :
    DescendingKeys params (sortReverse (collectKeys params)) := by
  refine ⟨?_, ?_⟩
  · rw [collectKeys_eq]; exact sortReverse_perm _
  · apply sortReverse_descending
    rw [collectKeys_eq]; exact hwf

/-! ## Inject as the specification words it -/

theorem foldl_eq_applySubstitutors (subs : List Substitutor) (text k v : GoString) :
    subs.foldl (fun injected substitute => substitute injected k v) text
      = applySubstitutors subs text k v := by
  induction subs generalizing text with
  | nil => rfl
  | cons s rest ih => simp [applySubstitutors, ih]

theorem foldl_eq_applyKeys (subs : List Substitutor) (params : Params) (ks : List GoString)
    (text : GoString) :
    ks.foldl
      (fun injected k =>
        let v := params.index k
        subs.foldl (fun injected substitute => substitute injected k v) injected)
      text = applyKeys subs params ks text := by
  induction ks generalizing text with
  | nil => rfl
  | cons k rest ih =>
    rw [List.foldl_cons, applyKeys, ih, foldl_eq_applySubstitutors]

theorem Inject_eq_applyKeys (subs : List Substitutor) (raw : GoString) (params : Params)
    (hne : params.isEmpty = false) :
    Inject subs raw params = applyKeys subs params (sortReverse (collectKeys params)) raw := by
  unfold Inject
  simp only [hne, Bool.false_eq_true, if_false]
  exact foldl_eq_applyKeys subs params _ raw

theorem applyKeys_append (subs : List Substitutor) (params : Params) (l r : List GoString)
    (text : GoString) :
    applyKeys subs params (l ++ r) text = applyKeys subs params r (applyKeys subs params l text) := by
  induction l generalizing text with
  | nil => rfl
  | cons k rest ih => simp [applyKeys, ih]


theorem applyKeys_congr (subs : List Substitutor) (p q : Params)
    (h : ∀ k, p.index k = q.index k) (ks : List GoString) (text : GoString) :
    applyKeys subs p ks text = applyKeys subs q ks text := by
  induction ks generalizing text with
  | nil => rfl
  | cons k rest ih => simp [applyKeys, ih, h]

/-! ## Lookup in a map does not depend on the enumeration -/

theorem find_entry_of_mem (es : List (GoString × GoString)) (hnd : (es.map Prod.fst).Nodup)
    (e : GoString × GoString) (he : e ∈ es) :
    es.find? (fun x => decide (x.1 = e.1)) = some e := by
  induction es with
  | nil => simp at he
  | cons x xs ih =>
    rw [List.map_cons, List.nodup_cons] at hnd
    rcases List.mem_cons.mp he with h | h
    · subst h; simp
    · have hx : x.1 ≠ e.1 := by
        intro hxe
        apply hnd.1
        rw [hxe]
        exact List.mem_map_of_mem Prod.fst h
      rw [List.find?_cons_of_neg _ (by simpa using hx)]
      exact ih hnd.2 h

theorem index_perm (es1 es2 : List (GoString × GoString)) (hperm : es1.Perm es2)
    (hnd : (es1.map Prod.fst).Nodup) (k : GoString) :
    Params.index (some es1) k = Params.index (some es2) k := by
  have hnd2 : (es2.map Prod.fst).Nodup := (hperm.map Prod.fst).nodup_iff.mp hnd
  unfold Params.index
  simp only [Params.entries]
  cases h1 : es1.find? (fun e => decide (e.1 = k)) with
  | some e =>
    have hm : e ∈ es1 := List.mem_of_find?_eq_some h1
    have hk : e.1 = k := by simpa using List.find?_some h1
    have := find_entry_of_mem es2 hnd2 e (hperm.subset hm)
    rw [hk] at this
    rw [this]
  | none =>
    have hn : es2.find? (fun e => decide (e.1 = k)) = none := by
      rw [List.find?_eq_none] at h1 ⊢
      intro x hx
      exact h1 x (hperm.symm.subset hx)
    rw [hn]

/-! ## The loops of InjectSafe -/

/-- The inner loop stores the last build-keyed entry of `before`, if there is one. -/
theorem replaceLoop_eq {ι ε : Type} (x : Extern ι ε) (i : Nat) (before after : MapSlice ι) :
    replaceLoop x i before after =
      match (before.filter (isBuild x)).getLast? with
      | none => after
      | some vv => after.set i vv := by
  induction before generalizing after with
  | nil => rfl
  | cons vv rest ih =>
    rw [replaceLoop, ih]
    by_cases h : isBuild x vv = true
    · rw [if_pos h, List.filter_cons_of_pos h, List.getLast?_cons]
      cases (rest.filter (isBuild x)).getLast? with
      | none => rfl
      | some w => simp [List.set_set]
    · rw [if_neg h, List.filter_cons_of_neg h]

/-- The outer loop runs the inner loop at the first build-keyed entry still to visit. -/
theorem bindLoop_eq {ι ε : Type} (x : Extern ι ε) (before after : MapSlice ι) (i : Nat)
    (rest : List (MapItem ι)) :
    bindLoop x before after i rest =
      if rest.any (isBuild x) then replaceLoop x (i + rest.findIdx (isBuild x)) before after
      else after := by
  induction rest generalizing i with
  | nil => rfl
  | cons v rest ih =>
    rw [bindLoop]
    by_cases h : isBuild x v = true
    · simp [h, List.findIdx_cons]
    · rw [if_neg h, ih]
      simp only [Bool.not_eq_true] at h
      simp only [List.any_cons, h, Bool.false_or, List.findIdx_cons, cond_false]
      rw [Nat.add_assoc, Nat.add_comm 1]

theorem bindBuild_eq {ι ε : Type} (x : Extern ι ε) (before after : MapSlice ι) :
    bindBuild x before after =
      if after.any (isBuild x) then replaceLoop x (after.findIdx (isBuild x)) before after
      else after := by
  rw [bindBuild, bindLoop_eq, Nat.zero_add]

/-- With a build-keyed entry in both slices, the loops store the last build-keyed entry of
`before` at the first build-keyed index of `after`. -/
theorem bindBuild_both {ι ε : Type} (x : Extern ι ε) (before after : MapSlice ι)
    (hb : ∃ e ∈ before, isBuild x e = true) (ha : ∃ e ∈ after, isBuild x e = true) :
    ∃ vv, (before.filter (isBuild x)).getLast? = some vv ∧
      bindBuild x before after = after.set (after.findIdx (isBuild x)) vv := by
  obtain ⟨e, he, hbe⟩ := hb
  have hne : before.filter (isBuild x) ≠ [] :=
    List.ne_nil_of_mem (List.mem_filter.mpr ⟨he, hbe⟩)
  cases hl : (before.filter (isBuild x)).getLast? with
  | none => exact absurd (List.getLast?_eq_none_iff.mp hl) hne
  | some vv =>
    refine ⟨vv, rfl, ?_⟩
    have hany : after.any (isBuild x) = true := List.any_eq_true.mpr ha
    rw [bindBuild_eq, if_pos hany, replaceLoop_eq, hl]

/-- Without a build-keyed entry in `before`, the loops leave `after` as it is. -/
theorem bindBuild_no_build_before {ι ε : Type} (x : Extern ι ε) (before after : MapSlice ι)
    (hb : ∀ e ∈ before, isBuild x e = false) : bindBuild x before after = after := by
  have hf : before.filter (isBuild x) = [] := by
    rw [List.filter_eq_nil_iff]
    intro e he
    rw [hb e he]
    decide
  rw [bindBuild_eq, replaceLoop_eq, hf]
  simp

/-- When both parses succeed, `InjectSafe` marshals the slice the loops leave. -/
theorem InjectSafe_of_parsed {ι ε : Type} (x : Extern ι ε) (subs : List Substitutor)
    (raw : GoString) (params : Params) (before after : MapSlice ι)
    (hne : params.isEmpty = false) (hb : parse x raw = (before, none))
    (ha : parse x (Inject subs raw params) = (after, none)) :
    InjectSafe x subs raw params = x.Marshal (bindBuild x before after) ∧
      marshalled x subs raw params = some (bindBuild x before after) := by
  unfold InjectSafe marshalled
  simp only [hne, Bool.false_eq_true, if_false, hb, ha, and_self]

/-! ## Scanning for occurrences -/

theorem stripHead_some (p s r : GoString) (h : stripHead p s = some r) : s = p ++ r := by
  induction p generalizing s with
  | nil => simp only [stripHead, Option.some.injEq] at h; simp [h]
  | cons a p ih =>
    cases s with
    | nil => simp [stripHead] at h
    | cons c cs =>
      simp only [stripHead] at h
      split_ifs at h with hac
      subst hac
      rw [ih cs h]
      rfl

theorem stripHead_append (p r : GoString) : stripHead p (p ++ r) = some r := by
  induction p with
  | nil => rfl
  | cons a p ih => simp [stripHead, ih]

theorem stripHead_eq_none_of_not_head (p s : GoString) (h : ¬ p <+: s) : stripHead p s = none := by
  cases hs : stripHead p s with
  | none => rfl
  | some r => exact absurd ⟨r, (stripHead_some p s r hs).symm⟩ h

/-- A pattern that holds `q` starts at no position of a text that does not hold `q`. -/
theorem stripHead_none_of_absent (q p text s : GoString) (hq : q <:+: p)
    (hno : ¬ q <:+: text) (hs : s <:+ text) : stripHead p s = none := by
  apply stripHead_eq_none_of_not_head
  intro hp
  exact hno (hq.trans (hp.isInfix.trans hs.isInfix))

/-- Where nothing is recognised at any position, the scan returns the text. -/
theorem rewriteAll_id (m : GoString → Option (GoString × Nat)) (text : GoString)
    (h : ∀ s, s <:+ text → m s = none) : rewriteAll m 0 text = text := by
  induction text with
  | nil => rfl
  | cons c cs ih =>
    rw [rewriteAll, h (c :: cs) (List.suffix_refl _)]
    simp only
    rw [ih (fun s hs => h s (hs.trans (List.suffix_cons c cs)))]

/-- A byte that is neither in the text nor in any replacement is not in the result. -/
theorem not_mem_rewriteAll (m : GoString → Option (GoString × Nat)) (b : Nat)
    (hm : ∀ s rep n, m s = some (rep, n) → b ∉ rep) (skip : Nat) (text : GoString)
    (ht : b ∉ text) : b ∉ rewriteAll m skip text := by
  induction text generalizing skip with
  | nil => simp [rewriteAll]
  | cons c cs ih =>
    have hc : b ≠ c := fun e => ht (by simp [e])
    have hcs : b ∉ cs := fun e => ht (List.mem_cons_of_mem c e)
    cases skip with
    | succ k => rw [rewriteAll]; exact ih k hcs
    | zero =>
      rw [rewriteAll]
      cases hmc : m (c :: cs) with
      | none =>
        simp only
        intro hmem
        rcases List.mem_cons.mp hmem with h | h
        · exact hc h
        · exact ih 0 hcs h
      | some r =>
        obtain ⟨rep, n⟩ := r
        simp only
        intro hmem
        rcases List.mem_append.mp hmem with h | h
        · exact hm _ rep n hmc h
        · exact ih (n - 1) hcs h

theorem matchBraced_none (key op : GoString) (f : GoString → Option GoString) (s : GoString)
    (h : stripHead (str "$$\x7b" ++ key ++ op) s = none) : matchBraced key op f s = none := by
  unfold matchBraced
  rw [h]

/-! ## Texts in which a substitutor finds nothing -/

theorem substituteBare_id (q text key val : GoString) (hq : q <:+: str "$$" ++ key)
    (hno : ¬ q <:+: text) : substituteBare text key val = text := by
  apply rewriteAll_id
  intro s hs
  rw [stripHead_none_of_absent q _ text s hq hno hs]
  rfl

theorem substituteQuoted_id (q text key val : GoString)
    (hq : q <:+: str "\"$$" ++ key ++ str "\"") (hno : ¬ q <:+: text) :
    substituteQuoted text key val = text := by
  apply rewriteAll_id
  intro s hs
  rw [stripHead_none_of_absent q _ text s hq hno hs]
  rfl

theorem substituteDefault_id (q text key val : GoString)
    (hq : q <:+: str "$$\x7b" ++ key ++ str "=") (hno : ¬ q <:+: text) :
    substituteDefault text key val = text := by
  apply rewriteAll_id
  intro s hs
  exact matchBraced_none _ _ _ _ (stripHead_none_of_absent q _ text s hq hno hs)

theorem substituteSubstr_id (q text key val : GoString)
    (hq : q <:+: str "$$\x7b" ++ key ++ str ":") (hno : ¬ q <:+: text) :
    substituteSubstr text key val = text := by
  apply rewriteAll_id
  intro s hs
  exact matchBraced_none _ _ _ _ (stripHead_none_of_absent q _ text s hq hno hs)

theorem substituteStrip_id (q text key val : GoString)
    (hq : q <:+: str "$$\x7b" ++ key ++ str "##") (hno : ¬ q <:+: text) :
    substituteStrip text key val = text := by
  apply rewriteAll_id
  intro s hs
  exact matchBraced_none _ _ _ _ (stripHead_none_of_absent q _ text s hq hno hs)

/-- Every form of the notation holds two consecutive `$`. -/
theorem specSubstitutors_id_of_no_dollars (text key val : GoString)
    (hno : ¬ str "$$" <:+: text) : ∀ s ∈ specSubstitutors, s text key val = text := by
  intro s hs
  simp only [specSubstitutors, List.mem_cons, List.mem_singleton, List.not_mem_nil,
    or_false] at hs
  rcases hs with h | h | h | h | h <;> subst h
  · exact substituteQuoted_id (str "$$") text key val
      ⟨str "\"", key ++ str "\"", by simp [str]⟩ hno
  · exact substituteDefault_id (str "$$") text key val
      ⟨[], str "\x7b" ++ key ++ str "=", by simp [str]⟩ hno
  · exact substituteSubstr_id (str "$$") text key val
      ⟨[], str "\x7b" ++ key ++ str ":", by simp [str]⟩ hno
  · exact substituteStrip_id (str "$$") text key val
      ⟨[], str "\x7b" ++ key ++ str "##", by simp [str]⟩ hno
  · exact substituteBare_id (str "$$") text key val ⟨[], key, by simp [str]⟩ hno

theorem applySubstitutors_id (subs : List Substitutor) (text k v : GoString)
    (h : ∀ s ∈ subs, s text k v = text) : applySubstitutors subs text k v = text := by
  induction subs with
  | nil => rfl
  | cons s rest ih =>
    rw [applySubstitutors, h s (List.mem_cons_self _ _)]
    exact ih (fun s2 hs2 => h s2 (List.mem_cons_of_mem _ hs2))

theorem applyKeys_id (subs : List Substitutor) (params : Params) (ks : List GoString)
    (text : GoString) (h : ∀ s ∈ subs, ∀ k v, s text k v = text) :
    applyKeys subs params ks text = text := by
  induction ks with
  | nil => rfl
  | cons k rest ih =>
    rw [applyKeys, applySubstitutors_id subs text k _ (fun s hs => h s hs k _)]
    exact ih

/-! ## The bare form replaces every occurrence -/

theorem str_dollars : str "$$" = [36, 36] := by decide

theorem length_bare_pattern (key : GoString) : (str "$$" ++ key).length = 2 + key.length := by
  rw [str_dollars]; simp; omega

theorem length_dropLast_bare_pattern (key : GoString) :
    ([] ++ (str "$$" ++ key).dropLast).length < (str "$$" ++ key).length := by
  rw [List.nil_append, List.length_dropLast, length_bare_pattern]
  omega

theorem rewriteAll_skip (m : GoString → Option (GoString × Nat)) (l rest : GoString) :
    rewriteAll m l.length (l ++ rest) = rewriteAll m 0 rest := by
  induction l with
  | nil => rfl
  | cons a l ih => simpa [rewriteAll] using ih

theorem substituteBare_at_occurrence (key val rest : GoString) :
    substituteBare (str "$$" ++ key ++ rest) key val = val ++ substituteBare rest key val := by
  unfold substituteBare
  have hpat : str "$$" ++ key ++ rest = 36 :: (36 :: key ++ rest) := by
    rw [str_dollars]; rfl
  rw [hpat, rewriteAll, ← hpat, stripHead_append]
  simp only [Option.map_some']
  have hlen : 2 + key.length - 1 = (36 :: key).length := by
    rw [List.length_cons]; omega
  rw [hlen]
  exact congrArg (fun t => val ++ t) (rewriteAll_skip _ (36 :: key) rest)

theorem substituteBare_cons (key val : GoString) (c : Nat) (cs : GoString)
    (h : ¬ str "$$" ++ key <+: c :: cs) :
    substituteBare (c :: cs) key val = c :: substituteBare cs key val := by
  unfold substituteBare
  rw [rewriteAll, stripHead_eq_none_of_not_head _ _ h]
  rfl

theorem prefix_dropLast_append (x pat rest : GoString) :
    x ++ pat.dropLast <+: x ++ pat ++ rest :=
  ((List.prefix_append_right_inj x).mpr (List.dropLast_prefix pat)).trans
    (List.prefix_append _ _)

theorem ReplacedAll.cons (pat rep : GoString) (c : Nat) (cs out : GoString)
    (h : ¬ pat <+: c :: cs) (hr : ReplacedAll pat rep cs out) :
    ReplacedAll pat rep (c :: cs) (c :: out) := by
  cases hr with
  | done _ hno =>
    apply ReplacedAll.done
    intro hin
    rcases List.infix_cons_iff.mp hin with h1 | h1
    · exact h h1
    · exact hno h1
  | occurrence head rest out2 hno hrest =>
    have hno2 : ¬ pat <:+: (c :: head) ++ pat.dropLast := by
      intro hin
      rcases List.infix_cons_iff.mp hin with h1 | h1
      · apply h
        exact h1.trans (prefix_dropLast_append (c :: head) pat rest)
      · exact hno h1
    exact ReplacedAll.occurrence (c :: head) rest out2 hno2 hrest

/-- The bare substitutor returns the text with every occurrence of `$$NAME`, found left to
right, replaced by the value and everything else kept. -/
theorem substituteBare_replacedAll (key val text : GoString) :
    ReplacedAll (str "$$" ++ key) val text (substituteBare text key val) := by
  suffices h : ∀ n (text : GoString), text.length ≤ n →
      ReplacedAll (str "$$" ++ key) val text (substituteBare text key val) from
    h text.length text (Nat.le_refl _)
  intro n
  induction n with
  | zero =>
    intro text hlen
    have : text = [] := List.length_eq_zero.mp (Nat.le_zero.mp hlen)
    subst this
    apply ReplacedAll.done
    intro hin
    have := hin.length_le
    rw [length_bare_pattern] at this
    simp at this
  | succ n ih =>
    intro text hlen
    cases text with
    | nil =>
      apply ReplacedAll.done
      intro hin
      have := hin.length_le
      rw [length_bare_pattern] at this
      simp at this
    | cons c cs =>
      by_cases hp : str "$$" ++ key <+: c :: cs
      · obtain ⟨rest, hrest⟩ := hp
        rw [← hrest, substituteBare_at_occurrence]
        have hshort : rest.length ≤ n := by
          have := congrArg List.length hrest
          rw [List.length_append, length_bare_pattern, List.length_cons] at this
          rw [List.length_cons] at hlen
          omega
        have hno : ¬ str "$$" ++ key <:+: [] ++ (str "$$" ++ key).dropLast := by
          intro hin
          have := hin.length_le
          have := length_dropLast_bare_pattern key
          omega
        have := ReplacedAll.occurrence [] rest _ hno (ih rest hshort)
        simpa using this
      · rw [substituteBare_cons key val c cs hp]
        exact ReplacedAll.cons _ _ c cs _ hp (ih cs (by simpa using hlen))

/-- The leftmost occurrence of a pattern is at one position. -/
theorem leftmost_unique (pat h1 r1 h2 r2 : GoString)
    (heq : h1 ++ pat ++ r1 = h2 ++ pat ++ r2)
    (hno2 : ¬ pat <:+: h2 ++ pat.dropLast) : ¬ h1.length < h2.length := by
  intro hlt
  rw [List.append_assoc, List.append_assoc, List.append_eq_append_iff] at heq
  rcases heq with ⟨a, ha, hb⟩ | ⟨a, ha, _⟩
  · subst ha
    have hapos : 0 < a.length := by simpa using hlt
    apply hno2
    have h3 : pat <+: a ++ pat.dropLast := by
      have p1 : pat <+: pat ++ r1 := List.prefix_append _ _
      have p2 : a ++ pat.dropLast <+: pat ++ r1 := by
        rw [hb, ← List.append_assoc]
        exact prefix_dropLast_append a pat r2
      refine List.prefix_of_prefix_length_le p1 p2 ?_
      rw [List.length_append, List.length_dropLast]
      omega
    rw [List.append_assoc]
    exact h3.isInfix.trans (List.suffix_append h1 _).isInfix
  · subst ha
    simp at hlt

theorem ReplacedAll.inv (pat rep text out : GoString) (h : ReplacedAll pat rep text out) :
    (¬ pat <:+: text ∧ out = text) ∨
      ∃ head rest out2, text = head ++ pat ++ rest ∧ out = head ++ rep ++ out2 ∧
        ¬ pat <:+: head ++ pat.dropLast ∧ ReplacedAll pat rep rest out2 := by
  cases h with
  | done _ hno => exact Or.inl ⟨hno, rfl⟩
  | occurrence head rest out2 hno hrest => exact Or.inr ⟨head, rest, out2, rfl, rfl, hno, hrest⟩

/-- At most one text is the text with every occurrence replaced. -/
theorem ReplacedAll.unique (pat rep text o1 o2 : GoString)
    (hr1 : ReplacedAll pat rep text o1) (hr2 : ReplacedAll pat rep text o2) : o1 = o2 := by
  induction hr1 generalizing o2 with
  | done t hno =>
    rcases ReplacedAll.inv _ _ _ _ hr2 with ⟨_, h⟩ | ⟨head, rest, out, ht, _, _, _⟩
    · exact h.symm
    · exact absurd (ht ▸ List.infix_append head pat rest) hno
  | occurrence head rest out hno hrest ih =>
    rcases ReplacedAll.inv _ _ _ _ hr2 with ⟨hno2, _⟩ | ⟨head2, rest2, out2, ht, ho, hno2, hrest2⟩
    · exact absurd (List.infix_append head pat rest) hno2
    · subst ho
      have hlen : head.length = head2.length := by
        have a1 := leftmost_unique pat head rest head2 rest2 ht hno2
        have a2 := leftmost_unique pat head2 rest2 head rest ht.symm hno
        omega
      rw [List.append_assoc, List.append_assoc] at ht
      have hh := List.append_inj_left ht hlen
      subst hh
      have hrr : rest = rest2 := by
        have := List.append_cancel_left ht
        exact List.append_cancel_left this
      subst hrr
      rw [ih out2 hrest2]

/-! ## One key -/

theorem Inject_single (subs : List Substitutor) (text k v : GoString) :
    Inject subs text (some [(k, v)]) = applySubstitutors subs text k v := by
  rw [Inject_eq_applyKeys subs text (some [(k, v)]) rfl, collectKeys_eq]
  simp [Params.entries, sortReverse, applyKeys, Params.index]

theorem not_infix_singleton (b : Nat) (text : GoString) (h : b ∉ text) : ¬ [b] <:+: text :=
  fun hin => h (hin.subset (List.mem_singleton_self b))

/-- With no `"` and no `{` in the text, only the bare form acts. -/
theorem Inject_single_eq_substituteBare (key val text : GoString) (hq : 34 ∉ text)
    (hb : 123 ∉ text) :
    Inject specSubstitutors text (some [(key, val)]) = substituteBare text key val := by
  rw [Inject_single]
  have hno := not_infix_singleton 123 text hb
  simp only [specSubstitutors, applySubstitutors]
  rw [substituteQuoted_id [34] text key val ⟨[], str "$$" ++ key ++ str "\"", by simp [str]⟩
      (not_infix_singleton 34 text hq),
    substituteDefault_id [123] _ key val ⟨str "$$", key ++ str "=", by simp [str]⟩ hno,
    substituteSubstr_id [123] _ key val ⟨str "$$", key ++ str ":", by simp [str]⟩ hno,
    substituteStrip_id [123] _ key val ⟨str "$$", key ++ str "##", by simp [str]⟩ hno]

/-! ## The substitutors of the specification on its own examples (§8, properties 2 to 6) -/

theorem specSubstitutors_examples :
    Inject specSubstitutors (str "echo $FOO $BAR") (some [(str "FOO", str "BAZ")])
      = str "echo $FOO $BAR" ∧
    Inject specSubstitutors (str "echo $$FOO $BAR") (some [(str "FOO", str "BAZ")])
      = str "echo BAZ $BAR" ∧
    Inject specSubstitutors (str "echo \"$$FOO\"") (some [(str "FOO", str "hello\nworld")])
      = str "echo \"hello\\nworld\"" ∧
    Inject specSubstitutors (str "tag: $$\x7bTAG=$$\x7bSHA:8\x7d\x7d")
        (some [(str "TAG", str ""), (str "SHA", str "f36cbf54ee1a1eeab264c8e388f386218ab1701b")])
      = str "tag: f36cbf54" ∧
    Inject specSubstitutors (str "echo \"$$\x7bTAG##v\x7d\"") (some [(str "TAG", str "v1.0.0")])
      = str "echo \"1.0.0\"" := by
  decide

/-! ## InjectSafe without a build section -/

/-- Without a build-keyed entry in `after`, the outer loop ends without a replacement. -/
theorem bindBuild_no_build_after {ι ε : Type} (x : Extern ι ε) (before after : MapSlice ι)
    (ha : ∀ e ∈ after, isBuild x e = false) : bindBuild x before after = after := by
  have hany : after.any (isBuild x) = false := by
    rw [List.any_eq_false]
    intro e he
    rw [ha e he]
    decide
  rw [bindBuild_eq, hany]
  rfl

theorem set_of_getElem? {α : Type} (d : List α) (i : Nat) (v : α) (h : d[i]? = some v) :
    d.set i v = d := by
  apply List.ext_getElem?
  intro j
  by_cases hj : i = j
  · subst hj
    rw [List.getElem?_set_self', h]
    rfl
  · rw [List.getElem?_set_ne hj]

/-- With at most one build-keyed entry, a document spliced with itself is unchanged. -/
theorem bindBuild_self {ι ε : Type} (x : Extern ι ε) (d : MapSlice ι)
    (h : (d.filter (isBuild x)).length ≤ 1) : bindBuild x d d = d := by
  cases hf : d.filter (isBuild x) with
  | nil =>
    apply bindBuild_no_build_after
    intro e he
    cases hb : isBuild x e with
    | false => rfl
    | true =>
      have : e ∈ d.filter (isBuild x) := List.mem_filter.mpr ⟨he, hb⟩
      rw [hf] at this
      simp at this
  | cons v rest =>
    rw [hf] at h
    have hrest : rest = [] := by
      cases rest with
      | nil => rfl
      | cons w rest => simp at h
    subst hrest
    have hv : v ∈ d.filter (isBuild x) := by rw [hf]; simp
    have hex : ∃ e ∈ d, isBuild x e = true :=
      ⟨v, (List.mem_filter.mp hv).1, (List.mem_filter.mp hv).2⟩
    obtain ⟨vv, hlast, hdoc⟩ := bindBuild_both x d d hex hex
    rw [hf] at hlast
    simp only [List.getLast?_singleton, Option.some.injEq] at hlast
    subst hlast
    rw [hdoc]
    apply set_of_getElem?
    have hlt : d.findIdx (isBuild x) < d.length := List.findIdx_lt_length_of_exists hex
    rw [List.getElem?_eq_getElem hlt]
    have hmem : d[d.findIdx (isBuild x)] ∈ d.filter (isBuild x) :=
      List.mem_filter.mpr ⟨List.getElem_mem _, List.findIdx_getElem⟩
    rw [hf] at hmem
    simp only [List.mem_singleton] at hmem
    rw [hmem]

/-! ## Bytes of the notation, names, operands -/

/-- A pattern does not start in a stretch that lacks its first byte. -/
theorem infix_skip (c : Nat) (h a b : GoString) (ha : c ∉ a) (hin : c :: h <:+: a ++ b) :
    c :: h <:+: b := by
  induction a with
  | nil => exact hin
  | cons x a ih =>
    have hx : c ≠ x := fun e => ha (by simp [e])
    have ha2 : c ∉ a := fun e => ha (List.mem_cons_of_mem x e)
    rcases List.infix_cons_iff.mp hin with h1 | h1
    · rw [List.cons_prefix_cons] at h1
      exact absurd h1.1 hx
    · exact ih ha2 h1

/-- A pattern without the byte `c` that starts in `a` ends in `a` when `c` follows `a`. -/
theorem head_of_head_append (c : Nat) (h a b : GoString) (hc : c ∉ h)
    (hp : h <+: a ++ c :: b) : h <+: a := by
  induction a generalizing h with
  | nil =>
    cases h with
    | nil => exact List.nil_prefix
    | cons x h =>
      rw [List.nil_append, List.cons_prefix_cons] at hp
      exact absurd (by simp [hp.1]) hc
  | cons y a ih =>
    cases h with
    | nil => exact List.nil_prefix
    | cons x h =>
      rw [List.cons_append, List.cons_prefix_cons] at hp
      rw [List.cons_prefix_cons]
      exact ⟨hp.1, ih h (fun e => hc (List.mem_cons_of_mem x e)) hp.2⟩

/-- Names and operators: `k`, then an operator, at the start of `NAME`, then an operator, is
the same name and an operator with the same first byte. -/
theorem name_then_operator (k NAME : GoString) (o o2 : Nat) (op rest : GoString)
    (hk : ∀ b ∈ k, b ≠ 61 ∧ b ≠ 58 ∧ b ≠ 35) (hN : ∀ b ∈ NAME, b ≠ 61 ∧ b ≠ 58 ∧ b ≠ 35)
    (ho : o = 61 ∨ o = 58 ∨ o = 35) (ho2 : o2 = 61 ∨ o2 = 58 ∨ o2 = 35)
    (hp : k ++ o :: op <+: NAME ++ o2 :: rest) : k = NAME ∧ o = o2 := by
  induction k generalizing NAME with
  | nil =>
    cases NAME with
    | nil =>
      rw [List.nil_append, List.nil_append, List.cons_prefix_cons] at hp
      exact ⟨rfl, hp.1⟩
    | cons n NAME =>
      rw [List.nil_append, List.cons_append, List.cons_prefix_cons] at hp
      have := hN n (List.mem_cons_self _ _)
      omega
  | cons c k ih =>
    cases NAME with
    | nil =>
      rw [List.nil_append, List.cons_append, List.cons_prefix_cons] at hp
      have := hk c (List.mem_cons_self _ _)
      omega
    | cons n NAME =>
      rw [List.cons_append, List.cons_append, List.cons_prefix_cons] at hp
      obtain ⟨hcn, hp2⟩ := hp
      obtain ⟨h1, h2⟩ := ih NAME (fun b hb => hk b (List.mem_cons_of_mem c hb))
        (fun b hb => hN b (List.mem_cons_of_mem n hb)) hp2
      exact ⟨by rw [hcn, h1], h2⟩

theorem str_dollars_brace : str "$$\x7b" = [36, 36, 123] := by decide

theorem str_brace_close : str "\x7d" = [125] := by decide

theorem str_quote : str "\"" = [34] := by decide

theorem str_quote_dollars : str "\"$$" = [34, 36, 36] := by decide

theorem str_eq_sign : str "=" = [61] := by decide

theorem str_colon : str ":" = [58] := by decide

theorem str_hashes : str "##" = [35, 35] := by decide

/-- The text around a braced occurrence, byte by byte. -/
theorem braced_text (pre NAME op operand post : GoString) :
    pre ++ braced NAME op operand ++ post
      = pre ++ 36 :: 36 :: ((123 :: (NAME ++ op)) ++ operand ++ 125 :: post) := by
  simp [braced, str_dollars_brace, str_brace_close]

theorem IsName.ne_nil {k : GoString} (h : IsName k) : k ≠ [] := h.1

theorem IsName.not_mem {k : GoString} (h : IsName k) (b : Nat)
    (hb : b ∈ [36, 123, 125, 34, 61, 58, 35]) : b ∉ k :=
  fun hmem => h.2 b hmem hb

theorem IsName.no_operator {k : GoString} (h : IsName k) :
    ∀ b ∈ k, b ≠ 61 ∧ b ≠ 58 ∧ b ≠ 35 := by
  intro b hb
  have := h.2 b hb
  simp only [List.mem_cons, List.mem_singleton, List.not_mem_nil, or_false, not_or] at this
  omega

/-- With nothing recognised in front of an occurrence, the scan keeps the text in front,
emits the replacement and goes on behind the occurrence. -/
theorem rewriteAll_frame (m : GoString → Option (GoString × Nat)) (pre occ post rep : GoString)
    (hpre : ∀ s, s ≠ [] → s <:+ pre → m (s ++ occ ++ post) = none) (hocc : occ ≠ [])
    (hm : m (occ ++ post) = some (rep, occ.length)) :
    rewriteAll m 0 (pre ++ occ ++ post) = pre ++ rep ++ rewriteAll m 0 post := by
  induction pre with
  | nil =>
    cases occ with
    | nil => exact absurd rfl hocc
    | cons o occ =>
      rw [List.nil_append, List.nil_append, List.cons_append, rewriteAll]
      rw [List.cons_append] at hm
      rw [hm]
      simp only [List.length_cons, Nat.add_sub_cancel]
      rw [rewriteAll_skip]
  | cons c pre ih =>
    have hc := hpre (c :: pre) (by simp) (List.suffix_refl _)
    rw [List.cons_append, List.cons_append] at hc ⊢
    rw [rewriteAll, hc]
    simp only
    rw [ih (fun s hs hsuf => hpre s hs (hsuf.trans (List.suffix_cons c pre)))]
    rfl

theorem stripHead_none_of_head_ne (a : Nat) (p : GoString) (c : Nat) (cs : GoString)
    (h : a ≠ c) : stripHead (a :: p) (c :: cs) = none := by
  simp [stripHead, h]

theorem readOperand_balanced (D rest : GoString) (d d2 : Nat)
    (h : braceDepth d D = some d2) :
    readOperand d (D ++ rest) = (readOperand d2 rest).map (fun r => D ++ r) := by
  induction D generalizing d with
  | nil =>
    simp only [braceDepth, Option.some.injEq] at h
    subst h
    simp
  | cons c D ih =>
    by_cases h1 : c = 125
    · subst h1
      cases d with
      | zero => simp [braceDepth] at h
      | succ d =>
        simp only [braceDepth, if_true] at h
        simp only [List.cons_append, readOperand, if_true, List.append_eq]
        rw [ih d h]
        simp [Option.map_map, Function.comp_def]
    · by_cases h2 : c = 123
      · subst h2
        have h3 : ¬ (123 : Nat) = 125 := by decide
        simp only [braceDepth, h3, if_true, if_false] at h
        simp only [List.cons_append, readOperand, h3, if_true, if_false, List.append_eq]
        rw [ih (d + 1) h]
        simp [Option.map_map, Function.comp_def]
      · simp only [braceDepth, h1, h2, if_false] at h
        simp only [List.cons_append, readOperand, h1, h2, if_false, List.append_eq]
        rw [ih d h]
        simp [Option.map_map, Function.comp_def]

/-- The operand of an occurrence with balanced braces is read up to the closing brace. -/
theorem readOperand_of_balanced (D post : GoString) (h : Balanced D) :
    readOperand 0 (D ++ 125 :: post) = some D := by
  rw [readOperand_balanced D (125 :: post) 0 0 h]
  simp [readOperand]

theorem length_braced (key op D : GoString) :
    (braced key op D).length = 3 + key.length + op.length + D.length + 1 := by
  simp [braced, str_dollars_brace, str_brace_close]
  omega

theorem braced_ne_nil (key op D : GoString) : braced key op D ≠ [] := by
  simp [braced, str_dollars_brace]

/-- At an occurrence with balanced braces, the braced form is recognised whole. -/
theorem matchBraced_at (key op D post rep : GoString) (f : GoString → Option GoString)
    (hbal : Balanced D) (hf : f D = some rep) :
    matchBraced key op f (braced key op D ++ post) = some (rep, (braced key op D).length) := by
  have hshape : braced key op D ++ post
      = (str "$$\x7b" ++ key ++ op) ++ (D ++ 125 :: post) := by
    simp [braced, str_brace_close]
  unfold matchBraced
  rw [hshape, stripHead_append]
  simp only
  rw [readOperand_of_balanced D post hbal]
  simp only
  rw [hf, length_braced]

theorem not_mem_escapeNewlines (V : GoString) : 10 ∉ escapeNewlines V := by
  induction V with
  | nil => simp [escapeNewlines]
  | cons c V ih =>
    rw [escapeNewlines]
    split_ifs with h
    · simp [ih]
    · simp [ih, Ne.symm h]

theorem escapeNewlines_head (c : Nat) (V : GoString)
    (h : [36] <+: escapeNewlines (c :: V)) : c = 36 := by
  rw [escapeNewlines] at h
  split_ifs at h with h1
  · rw [List.cons_prefix_cons] at h
    omega
  · rw [List.cons_prefix_cons] at h
    exact h.1.symm

/-- Escaping the newlines of a value brings no `$$` into it. -/
theorem dollars_of_escapeNewlines (V : GoString) (h : str "$$" <:+: escapeNewlines V) :
    str "$$" <:+: V := by
  rw [str_dollars] at h ⊢
  induction V with
  | nil => simp [escapeNewlines] at h
  | cons c V ih =>
    rw [escapeNewlines] at h
    split_ifs at h with h1
    · have h2 := infix_skip 36 [36] [92, 110] (escapeNewlines V) (by decide) h
      exact (ih h2).trans (List.suffix_cons c V).isInfix
    · rcases List.infix_cons_iff.mp h with h2 | h2
      · rw [List.cons_prefix_cons] at h2
        obtain ⟨hc, h3⟩ := h2
        cases V with
        | nil => simp [escapeNewlines] at h3
        | cons d V =>
          have hd := escapeNewlines_head d V h3
          subst hd
          rw [← hc]
          exact ⟨[], V, rfl⟩
      · exact (ih h2).trans (List.suffix_cons c V).isInfix

theorem length_quoted (NAME : GoString) : (quoted NAME).length = 3 + NAME.length + 1 := by
  simp [quoted, str_quote_dollars, str_quote]
  omega

theorem applyKeys_id_of_keys (subs : List Substitutor) (params : Params) (ks : List GoString)
    (text : GoString) (h : ∀ k ∈ ks, ∀ s ∈ subs, s text k (params.index k) = text) :
    applyKeys subs params ks text = text := by
  induction ks with
  | nil => rfl
  | cons k rest ih =>
    rw [applyKeys, applySubstitutors_id subs text k _ (h k (List.mem_cons_self _ _))]
    exact ih (fun k2 hk2 => h k2 (List.mem_cons_of_mem _ hk2))

theorem index_of_mem (params : Params) (hwf : params.WF) (k v : GoString)
    (hmem : (k, v) ∈ params.entries) : params.index k = v := by
  unfold Params.index
  rw [find_entry_of_mem params.entries hwf (k, v) hmem]

theorem decimalDigits_append (fuel n : Nat) (acc : GoString) :
    decimalDigits fuel n acc = decimalDigits fuel n [] ++ acc := by
  induction fuel generalizing n acc with
  | zero => rfl
  | succ fuel ih =>
    rw [decimalDigits, decimalDigits]
    split_ifs with h
    · rfl
    · rw [ih (n / 10) ((n % 10 + 48) :: acc), ih (n / 10) [n % 10 + 48]]
      simp

theorem parseDigits_append (a : Nat) (xs ys : GoString) :
    parseDigits a (xs ++ ys) = (parseDigits a xs).bind (fun v => parseDigits v ys) := by
  induction xs generalizing a with
  | nil => rfl
  | cons c xs ih =>
    rw [List.cons_append, parseDigits, parseDigits]
    split_ifs with h
    · exact ih _
    · rfl

theorem parseDigits_decimalDigits (fuel n : Nat) (h : n < fuel) :
    parseDigits 0 (decimalDigits fuel n []) = some n := by
  induction fuel generalizing n with
  | zero => omega
  | succ fuel ih =>
    rw [decimalDigits]
    split_ifs with h10
    · have h1 : 48 ≤ n + 48 ∧ n + 48 ≤ 57 := by omega
      simp [parseDigits, h1]
    · rw [decimalDigits_append, parseDigits_append, ih (n / 10) (by omega)]
      have h1 : 48 ≤ n % 10 + 48 ∧ n % 10 + 48 ≤ 57 := by omega
      simp only [Option.some_bind, parseDigits, h1, and_self, if_true, Option.some.injEq]
      omega

/-- Reading the decimal numeral of `n` gives `n`. -/
theorem parseDigits_decimal (n : Nat) : parseDigits 0 (decimal n) = some n :=
  parseDigits_decimalDigits (n + 1) n (by omega)

theorem decimalDigits_bytes (fuel n : Nat) (acc : GoString) :
    ∀ b ∈ decimalDigits fuel n acc, (48 ≤ b ∧ b ≤ 57) ∨ b ∈ acc := by
  induction fuel generalizing n acc with
  | zero => intro b hb; exact Or.inr hb
  | succ fuel ih =>
    intro b hb
    rw [decimalDigits] at hb
    split_ifs at hb with h10
    · rcases List.mem_cons.mp hb with e | e
      · left; omega
      · exact Or.inr e
    · rcases ih (n / 10) _ b hb with e | e
      · exact Or.inl e
      · rcases List.mem_cons.mp e with e | e
        · left; omega
        · exact Or.inr e

theorem decimal_bytes (n : Nat) : ∀ b ∈ decimal n, 48 ≤ b ∧ b ≤ 57 := by
  intro b hb
  rcases decimalDigits_bytes (n + 1) n [] b hb with e | e
  · exact e
  · simp at e

theorem decimal_ne_nil (n : Nat) : decimal n ≠ [] := by
  unfold decimal
  rw [decimalDigits]
  split_ifs with h
  · simp
  · rw [decimalDigits_append]
    simp

theorem braceDepth_of_no_brace (D : GoString) (d : Nat) (h1 : 123 ∉ D) (h2 : 125 ∉ D) :
    braceDepth d D = some d := by
  induction D with
  | nil => rfl
  | cons c D ih =>
    have hc1 : ¬ c = 123 := fun e => h1 (by simp [e])
    have hc2 : ¬ c = 125 := fun e => h2 (by simp [e])
    simp only [braceDepth, hc1, hc2, if_false]
    exact ih (fun e => h1 (List.mem_cons_of_mem c e)) (fun e => h2 (List.mem_cons_of_mem c e))

theorem balanced_decimal (n : Nat) : Balanced (decimal n) := by
  apply braceDepth_of_no_brace
  · intro e; have := decimal_bytes n 123 e; omega
  · intro e; have := decimal_bytes n 125 e; omega

theorem no_dollar_decimal (n : Nat) : 36 ∉ decimal n := by
  intro e; have := decimal_bytes n 36 e; omega

/-! ## Texts that a scan passes over -/

/-- Where nothing is recognised at a position of `A`, the scan keeps `A` and goes on behind
it. -/
theorem rewriteAll_pass (m : GoString → Option (GoString × Nat)) (A B : GoString)
    (h : ∀ s, s ≠ [] → s <:+ A → m (s ++ B) = none) :
    rewriteAll m 0 (A ++ B) = A ++ rewriteAll m 0 B := by
  induction A with
  | nil => rfl
  | cons c A ih =>
    have hc := h (c :: A) (by simp) (List.suffix_refl _)
    rw [List.cons_append] at hc ⊢
    rw [rewriteAll, hc]
    simp only
    rw [ih (fun s hs hsuf => h s hs (hsuf.trans (List.suffix_cons c A)))]
    rfl

/-- A pattern at the start of `s ++ X` lies in `s`, or goes on into `X`. -/
theorem head_append_cases (p s X : GoString) (h : p <+: s ++ X) :
    p <+: s ∨ ∃ u, u ≠ [] ∧ p = s ++ u ∧ u <+: X := by
  induction s generalizing p with
  | nil =>
    cases p with
    | nil => exact Or.inl List.nil_prefix
    | cons a p => exact Or.inr ⟨a :: p, by simp, rfl, h⟩
  | cons c s ih =>
    cases p with
    | nil => exact Or.inl List.nil_prefix
    | cons a p =>
      rw [List.cons_append, List.cons_prefix_cons] at h
      rcases ih p h.2 with h1 | ⟨u, hu, hpu, huX⟩
      · exact Or.inl (by rw [List.cons_prefix_cons]; exact ⟨h.1, h1⟩)
      · exact Or.inr ⟨u, hu, by rw [h.1, hpu]; rfl, huX⟩

/-- With `Clear p W`, the pattern `p` begins at no position of `W`, whatever follows `W`. -/
theorem Clear.not_head {p W : GoString} (h : Clear p W) (s B : GoString) (hs : s ≠ [])
    (hsuf : s <:+ W) : ¬ p <+: s ++ B := by
  intro hp
  rcases head_append_cases p s B hp with h1 | ⟨u, _, hpu, _⟩
  · exact (h s hs hsuf).2 h1
  · exact (h s hs hsuf).1 ⟨u, hpu.symm⟩

/-- With `Clear p (A ++ R)`, the pattern `p` does not occur in `A`. -/
theorem Clear.not_infix_left {p A R : GoString} (h : Clear p (A ++ R)) (hp : p ≠ []) :
    ¬ p <:+: A := by
  rintro ⟨a, b, hab⟩
  have hsuf : p ++ b ++ R <:+ A ++ R := ⟨a, by rw [← hab]; simp⟩
  have hne : p ++ b ++ R ≠ [] := by
    cases p with
    | nil => exact absurd rfl hp
    | cons x p => simp
  exact (h _ hne hsuf).2 ⟨b ++ R, by simp⟩

/-- With `Clear p (A ++ R)`, the pattern `p` does not occur in `R`. -/
theorem Clear.not_infix_right {p A R : GoString} (h : Clear p (A ++ R)) (hp : p ≠ []) :
    ¬ p <:+: R := by
  rintro ⟨a, b, hab⟩
  have hsuf : p ++ b <:+ A ++ R := ⟨A ++ a, by rw [← hab]; simp⟩
  have hne : p ++ b ≠ [] := by
    cases p with
    | nil => exact absurd rfl hp
    | cons x p => simp
  exact (h _ hne hsuf).2 ⟨b, rfl⟩

/-- A scan whose occurrences begin with `p` passes over a text in which `p` begins
nowhere. -/
theorem rewriteAll_pass_of_clear (m : GoString → Option (GoString × Nat)) (p W B : GoString)
    (hm : ∀ s, ¬ p <+: s → m s = none) (h : Clear p W) :
    rewriteAll m 0 (W ++ B) = W ++ rewriteAll m 0 B :=
  rewriteAll_pass m W B (fun s hs hsuf => hm _ (h.not_head s B hs hsuf))

theorem Clear.of_head {c p W : GoString} (h : Clear c W) (hcp : c <+: p) :
    ∀ s B, s ≠ [] → s <:+ W → ¬ p <+: s ++ B :=
  fun s B hs hsuf hp => h.not_head s B hs hsuf (hcp.trans hp)

/-! ## What the substitutors recognise -/

theorem bare_none (k v s : GoString) (h : ¬ str "$$" ++ k <+: s) :
    (stripHead (str "$$" ++ k) s).map (fun _ => (v, 2 + k.length)) = none := by
  rw [stripHead_eq_none_of_not_head _ _ h]
  rfl

theorem quoted_none (k v s : GoString) (h : ¬ str "\"$$" ++ k ++ str "\"" <+: s) :
    (stripHead (str "\"$$" ++ k ++ str "\"") s).map
      (fun _ => (str "\"" ++ escapeNewlines v ++ str "\"", 3 + k.length + 1)) = none := by
  rw [stripHead_eq_none_of_not_head _ _ h]
  rfl

theorem braced_none (k op : GoString) (f : GoString → Option GoString) (s : GoString)
    (h : ¬ str "$$\x7b" ++ k ++ op <+: s) : matchBraced k op f s = none :=
  matchBraced_none k op f s (stripHead_eq_none_of_not_head _ _ h)

theorem braced_none_of_core (k op : GoString) (f : GoString → Option GoString) (s : GoString)
    (h : ¬ str "$$\x7b" ++ k <+: s) : matchBraced k op f s = none :=
  braced_none k op f s (fun hp => h ((List.prefix_append _ op).trans hp))

/-! ## The passes of a key over a text without a reference to it -/

theorem substituteBare_pass (k v W B : GoString) (h : Clear (str "$$" ++ k) W) :
    substituteBare (W ++ B) k v = W ++ substituteBare B k v :=
  rewriteAll_pass_of_clear _ (str "$$" ++ k) W B (fun s hs => bare_none k v s hs) h

theorem braced_pass (k op : GoString) (f : GoString → Option GoString) (W B : GoString)
    (h : Clear (str "$$\x7b" ++ k) W) :
    rewriteAll (matchBraced k op f) 0 (W ++ B) = W ++ rewriteAll (matchBraced k op f) 0 B :=
  rewriteAll_pass_of_clear _ (str "$$\x7b" ++ k) W B
    (fun s hs => braced_none_of_core k op f s hs) h

theorem substituteQuoted_pass (k v W B : GoString) (h : Clear (str "$$" ++ k) W)
    (hJ : W.getLast? = some 34 → B.head? ≠ some 36) :
    substituteQuoted (W ++ B) k v = W ++ substituteQuoted B k v := by
  apply rewriteAll_pass
  intro s hs hsuf
  apply quoted_none
  intro hp
  cases s with
  | nil => exact hs rfl
  | cons x s1 =>
    have hp1 : 34 :: (36 :: 36 :: (k ++ [34])) <+: x :: (s1 ++ B) := by
      simpa [str_quote_dollars, str_quote] using hp
    rw [List.cons_prefix_cons] at hp1
    obtain ⟨hx, hp2⟩ := hp1
    subst hx
    by_cases hs1 : s1 = []
    · subst hs1
      have hlast : W.getLast? = some 34 := by
        obtain ⟨a, ha⟩ := hsuf
        rw [← ha]
        simp
      have hB := hJ hlast
      rw [List.nil_append] at hp2
      cases B with
      | nil => simp at hp2
      | cons b B =>
        rw [List.cons_prefix_cons] at hp2
        exact hB (by simp [hp2.1])
    · have hsuf1 : s1 <:+ W := (List.suffix_cons 34 s1).trans hsuf
      apply h.not_head s1 B hs1 hsuf1
      rw [str_dollars]
      obtain ⟨t, ht⟩ := hp2
      exact ⟨[34] ++ t, by rw [← ht]; simp⟩

/-! ## The first byte of a text behind a pass -/

/-- A scan whose occurrences begin with `$`, or whose replacements begin with `"`, brings no
`$` to the front of a text. -/
theorem head_rewriteAll (m : GoString → Option (GoString × Nat))
    (hm : ∀ s rep n, m s = some (rep, n) → s.head? = some 36 ∨ rep.head? = some 34)
    (B : GoString) (hB : B.head? ≠ some 36) : (rewriteAll m 0 B).head? ≠ some 36 := by
  cases B with
  | nil => simp [rewriteAll]
  | cons c cs =>
    rw [rewriteAll]
    cases hmc : m (c :: cs) with
    | none => simpa using hB
    | some r =>
      obtain ⟨rep, n⟩ := r
      simp only
      rcases hm _ rep n hmc with h | h
      · exact absurd h hB
      · cases rep with
        | nil => simp at h
        | cons a rep =>
          simp only [List.head?_cons, Option.some.injEq] at h
          subst h
          simp

theorem head_of_pattern (m : GoString → Option (GoString × Nat)) (p : GoString)
    (hm : ∀ s, ¬ 36 :: p <+: s → m s = none) (s rep : GoString) (n : Nat)
    (h : m s = some (rep, n)) : s.head? = some 36 ∨ rep.head? = some 34 := by
  left
  by_contra hne
  have hnone := hm s (fun hp => hne (by
    obtain ⟨t, ht⟩ := hp
    rw [← ht]
    rfl))
  rw [hnone] at h
  exact absurd h (by simp)

/-- No substitutor of the specification brings a `$` to the front of a text. -/
theorem head_specSubstitutors (k v B : GoString) (hB : B.head? ≠ some 36) :
    ∀ s ∈ specSubstitutors, (s B k v).head? ≠ some 36 := by
  intro s hs
  simp only [specSubstitutors, List.mem_cons, List.mem_singleton, List.not_mem_nil,
    or_false] at hs
  rcases hs with e | e | e | e | e <;> subst e
  · apply head_rewriteAll _ _ B hB
    intro s rep n h
    right
    cases hsh : stripHead (str "\"$$" ++ k ++ str "\"") s with
    | none => rw [hsh] at h; simp at h
    | some r =>
      rw [hsh] at h
      simp only [Option.map_some', Option.some.injEq, Prod.mk.injEq] at h
      rw [← h.1]
      rfl
  · exact head_rewriteAll _ (head_of_pattern _ ([36, 123] ++ k ++ str "=")
      (fun s hp => braced_none k (str "=") _ s (by simpa [str_dollars_brace] using hp))) B hB
  · exact head_rewriteAll _ (head_of_pattern _ ([36, 123] ++ k ++ str ":")
      (fun s hp => braced_none k (str ":") _ s (by simpa [str_dollars_brace] using hp))) B hB
  · exact head_rewriteAll _ (head_of_pattern _ ([36, 123] ++ k ++ str "##")
      (fun s hp => braced_none k (str "##") _ s (by simpa [str_dollars_brace] using hp))) B hB
  · exact head_rewriteAll _ (head_of_pattern _ ([36] ++ k)
      (fun s hp => bare_none k v s (by simpa [str_dollars] using hp))) B hB

theorem head_applySubstitutors (subs : List Substitutor) (k v B : GoString)
    (hsubs : ∀ C : GoString, C.head? ≠ some 36 → ∀ s ∈ subs, (s C k v).head? ≠ some 36)
    (hB : B.head? ≠ some 36) : (applySubstitutors subs B k v).head? ≠ some 36 := by
  induction subs generalizing B with
  | nil => exact hB
  | cons s rest ih =>
    rw [applySubstitutors]
    exact ih _ (fun C hC s2 hs2 => hsubs C hC s2 (List.mem_cons_of_mem _ hs2))
      (hsubs B hB s (List.mem_cons_self _ _))

theorem head_pass (k v B : GoString) (hB : B.head? ≠ some 36) :
    (applySubstitutors specSubstitutors B k v).head? ≠ some 36 :=
  head_applySubstitutors specSubstitutors k v B
    (fun C hC => head_specSubstitutors k v C hC) hB

theorem head_applyKeys (params : Params) (ks : List GoString) (B : GoString)
    (hB : B.head? ≠ some 36) :
    (applyKeys specSubstitutors params ks B).head? ≠ some 36 := by
  induction ks generalizing B with
  | nil => exact hB
  | cons k rest ih =>
    rw [applyKeys]
    exact ih _ (head_pass k _ B hB)

/-! ## The passes of the keys over a settled text -/

/-- All forms of a key pass over a text that holds no reference to it. -/
theorem applySubstitutors_pass (k v W B : GoString) (h : NoReference k W)
    (hJ : W.getLast? = some 34 → B.head? ≠ some 36) :
    applySubstitutors specSubstitutors (W ++ B) k v
      = W ++ applySubstitutors specSubstitutors B k v := by
  simp only [specSubstitutors, applySubstitutors]
  rw [substituteQuoted_pass k v W B h.1 hJ]
  unfold substituteDefault substituteSubstr substituteStrip
  rw [braced_pass k _ _ W _ h.2, braced_pass k _ _ W _ h.2, braced_pass k _ _ W _ h.2,
    substituteBare_pass k v W _ h.1]

/-- The passes of keys to which a text holds no reference keep the text, and treat what is
behind it as they treat that on its own. -/
theorem applyKeys_pass (params : Params) (ks : List GoString) (W B : GoString)
    (h : ∀ k ∈ ks, NoReference k W) (hJ : W.getLast? = some 34 → B.head? ≠ some 36) :
    applyKeys specSubstitutors params ks (W ++ B)
      = W ++ applyKeys specSubstitutors params ks B := by
  induction ks generalizing B with
  | nil => rfl
  | cons k rest ih =>
    rw [applyKeys, applyKeys, applySubstitutors_pass k _ W B (h k (List.mem_cons_self _ _)) hJ]
    exact ih _ (fun k2 hk2 => h k2 (List.mem_cons_of_mem _ hk2))
      (fun hl => head_pass k _ B (hJ hl))

/-! ## A scan in front of and over a braced occurrence that it does not recognise -/

theorem rewriteAll_cons_none (m : GoString → Option (GoString × Nat)) (c : Nat)
    (cs : GoString) (h : m (c :: cs) = none) :
    rewriteAll m 0 (c :: cs) = c :: rewriteAll m 0 cs := by
  rw [rewriteAll, h]

/-- A pattern begins at none of the bytes that are not its first byte. -/
theorem rewriteAll_pass_bytes (m : GoString → Option (GoString × Nat)) (p A B : GoString)
    (x : Nat) (hm : ∀ s, ¬ x :: p <+: s → m s = none) (hA : x ∉ A) :
    rewriteAll m 0 (A ++ B) = A ++ rewriteAll m 0 B := by
  apply rewriteAll_pass
  intro s hs hsuf
  apply hm
  intro hp
  cases s with
  | nil => exact hs rfl
  | cons b s =>
    rw [List.cons_append, List.cons_prefix_cons] at hp
    exact hA (hsuf.subset (by simp [hp.1]))

theorem braced_append (NAME op D B : GoString) :
    braced NAME op D ++ B = 36 :: 36 :: ((123 :: (NAME ++ op)) ++ (D ++ 125 :: B)) := by
  simp [braced, str_dollars_brace, str_brace_close]

/-- A pattern `$$g` that does not occur in `pre` begins at no position of `pre` when `$${`
follows `pre`. -/
theorem not_head_before_braces (g pre s Y : GoString) (hg0 : g ≠ []) (hg : 36 ∉ g)
    (hpre : ¬ 36 :: 36 :: g <:+: pre) (hs : s ≠ []) (hsuf : s <:+ pre) :
    ¬ 36 :: 36 :: g <+: s ++ 36 :: 36 :: 123 :: Y := by
  intro hp
  rcases head_append_cases _ s _ hp with h1 | ⟨u, hu, hpu, huX⟩
  · exact hpre (h1.isInfix.trans hsuf.isInfix)
  · cases s with
    | nil => exact hs rfl
    | cons a s1 =>
      cases s1 with
      | nil =>
        simp only [List.cons_append, List.nil_append, List.cons.injEq] at hpu
        obtain ⟨_, hu2⟩ := hpu
        subst hu2
        rw [List.cons_prefix_cons] at huX
        cases g with
        | nil => exact hg0 rfl
        | cons b g =>
          have h2 := huX.2
          rw [List.cons_prefix_cons] at h2
          exact hg (by simp [h2.1])
      | cons b s2 =>
        simp only [List.cons_append, List.cons.injEq] at hpu
        obtain ⟨_, _, hg2⟩ := hpu
        cases u with
        | nil => exact hu rfl
        | cons c u =>
          rw [List.cons_prefix_cons] at huX
          apply hg
          rw [hg2, huX.1]
          simp

/-- The quoted form of a name that has no `$$k` in `pre` begins at no position of `pre` when
`$${` follows `pre`. -/
theorem quoted_not_head_before_braces (k pre s Y : GoString) (hk : IsName k)
    (hpre : ¬ 36 :: 36 :: k <:+: pre) (hs : s ≠ []) (hsuf : s <:+ pre) :
    ¬ 34 :: 36 :: 36 :: (k ++ [34]) <+: s ++ 36 :: 36 :: 123 :: Y := by
  intro hp
  cases s with
  | nil => exact hs rfl
  | cons x s1 =>
    rw [List.cons_append, List.cons_prefix_cons] at hp
    obtain ⟨_, hp2⟩ := hp
    by_cases hs1 : s1 = []
    · subst hs1
      rw [List.nil_append, List.cons_prefix_cons, List.cons_prefix_cons] at hp2
      have h3 := hp2.2.2
      cases k with
      | nil => exact hk.ne_nil rfl
      | cons c k =>
        rw [List.cons_append, List.cons_prefix_cons] at h3
        exact hk.not_mem 123 (by decide) (by simp [h3.1])
    · refine not_head_before_braces (k ++ [34]) pre s1 Y (by simp) ?_ ?_ hs1
        ((List.suffix_cons x s1).trans hsuf) hp2
      · intro hmem
        rcases List.mem_append.mp hmem with e | e
        · exact hk.not_mem 36 (by decide) e
        · simp at e
      · intro hin
        apply hpre
        refine List.IsInfix.trans ?_ hin
        exact ⟨[], [34], by simp⟩

/-- A scan passes over a braced occurrence in which its pattern occurs neither at the start nor
in the operand. -/
theorem rewriteAll_over_braced (m : GoString → Option (GoString × Nat)) (x : Nat)
    (p NAME op D B : GoString) (hm : ∀ s, ¬ x :: p <+: s → m s = none)
    (hx : x = 36 ∨ x = 34) (hp36 : x = 36 → ∃ g, p = 36 :: g) (h125 : 125 ∉ p)
    (hD : ¬ x :: p <:+: D) (hstart : ¬ x :: p <+: braced NAME op D ++ B)
    (hN : 36 ∉ NAME ∧ 34 ∉ NAME) (hop : 36 ∉ op ∧ 34 ∉ op) :
    rewriteAll m 0 (braced NAME op D ++ B) = braced NAME op D ++ rewriteAll m 0 B := by
  have h1 : m (braced NAME op D ++ B) = none := hm _ hstart
  rw [braced_append] at h1 ⊢
  rw [rewriteAll_cons_none m _ _ h1]
  have h2 : m (36 :: ((123 :: (NAME ++ op)) ++ (D ++ 125 :: B))) = none := by
    apply hm
    intro hp
    rw [List.cons_prefix_cons] at hp
    rcases hx with e | e
    · obtain ⟨g, hg⟩ := hp36 e
      rw [hg, List.cons_append, List.cons_prefix_cons] at hp
      have := hp.2.1
      omega
    · have := hp.1
      omega
  rw [rewriteAll_cons_none m _ _ h2]
  have hA : x ∉ 123 :: (NAME ++ op) := by
    intro hmem
    rcases List.mem_cons.mp hmem with e | e
    · omega
    · rcases List.mem_append.mp e with e | e
      · rcases hx with e2 | e2
        · exact hN.1 (e2 ▸ e)
        · exact hN.2 (e2 ▸ e)
      · rcases hx with e2 | e2
        · exact hop.1 (e2 ▸ e)
        · exact hop.2 (e2 ▸ e)
  rw [rewriteAll_pass_bytes m p (123 :: (NAME ++ op)) _ x hm hA]
  have hDpass : rewriteAll m 0 (D ++ 125 :: B) = D ++ rewriteAll m 0 (125 :: B) := by
    apply rewriteAll_pass
    intro s _ hsuf
    apply hm
    intro hp
    have h125x : 125 ∉ x :: p := by
      intro hmem
      rcases List.mem_cons.mp hmem with e | e
      · omega
      · exact h125 e
    exact hD ((head_of_head_append 125 (x :: p) s B h125x hp).isInfix.trans hsuf.isInfix)
  have hlast : m (125 :: B) = none := by
    apply hm
    intro hp
    rw [List.cons_prefix_cons] at hp
    omega
  rw [hDpass, rewriteAll_cons_none m _ _ hlast, braced_append]

/-- The operators of the braced forms: `=`, `:`, `##`. -/
theorem operator_bytes (op : GoString) (hop : op ∈ [[61], [58], [35, 35]]) :
    36 ∉ op ∧ 34 ∉ op ∧ 125 ∉ op ∧ ∃ o oq, op = o :: oq ∧ (o = 61 ∨ o = 58 ∨ o = 35) := by
  simp only [List.mem_cons, List.mem_singleton, List.not_mem_nil, or_false] at hop
  rcases hop with e | e | e <;> subst e
  · exact ⟨by decide, by decide, by decide, 61, [], rfl, by omega⟩
  · exact ⟨by decide, by decide, by decide, 58, [], rfl, by omega⟩
  · exact ⟨by decide, by decide, by decide, 35, [35], rfl, by omega⟩

theorem operator_eq_of_first (op1 op2 : GoString) (h1 : op1 ∈ [[61], [58], [35, 35]])
    (h2 : op2 ∈ [[61], [58], [35, 35]]) (o o2 : Nat) (oq oq2 : GoString)
    (e1 : op1 = o :: oq) (e2 : op2 = o2 :: oq2) (h : o = o2) : op1 = op2 := by
  simp only [List.mem_cons, List.mem_singleton, List.not_mem_nil, or_false] at h1 h2
  rcases h1 with a | a | a <;> rcases h2 with b | b | b <;> subst a <;> subst b <;>
    first
      | rfl
      | (exfalso
         have h3 := (List.cons.inj e1).1
         have h4 := (List.cons.inj e2).1
         omega)

/-- The bare pass of a name goes through a text with a braced occurrence when `$$k` occurs
neither in front of the occurrence nor in its operand. -/
theorem substituteBare_through (k v pre NAME op D B : GoString) (hk : IsName k)
    (hN : IsName NAME) (hop : op ∈ [[61], [58], [35, 35]])
    (hpre : ¬ str "$$" ++ k <:+: pre) (hD : ¬ str "$$" ++ k <:+: D) :
    substituteBare (pre ++ braced NAME op D ++ B) k v
      = pre ++ braced NAME op D ++ substituteBare B k v := by
  rw [str_dollars] at hpre hD
  obtain ⟨hop36, hop34, _, _⟩ := operator_bytes op hop
  have hm : ∀ s, ¬ 36 :: (36 :: k) <+: s →
      (stripHead (str "$$" ++ k) s).map (fun _ => (v, 2 + k.length)) = none :=
    fun s hs => bare_none k v s (by simpa [str_dollars] using hs)
  unfold substituteBare
  rw [List.append_assoc pre, rewriteAll_pass _ pre _ (fun s hs hsuf => hm _ (by
      rw [braced_append]
      exact not_head_before_braces k pre s _ hk.ne_nil (hk.not_mem 36 (by decide)) hpre hs
        hsuf)),
    rewriteAll_over_braced _ 36 (36 :: k) NAME op D B hm (Or.inl rfl) (fun _ => ⟨k, rfl⟩)
      (by
        intro hmem
        rcases List.mem_cons.mp hmem with e | e
        · omega
        · exact hk.not_mem 125 (by decide) e)
      hD
      (by
        rw [braced_append, List.cons_prefix_cons, List.cons_prefix_cons]
        rintro ⟨_, _, h3⟩
        cases k with
        | nil => exact hk.ne_nil rfl
        | cons c k =>
          rw [List.cons_append, List.cons_prefix_cons] at h3
          exact hk.not_mem 123 (by decide) (by simp [h3.1]))
      ⟨hN.not_mem 36 (by decide), hN.not_mem 34 (by decide)⟩ ⟨hop36, hop34⟩,
    ← List.append_assoc pre]

/-- The quoted pass of a name goes through a text with a braced occurrence when `$$k` occurs
neither in front of the occurrence nor in its operand. -/
theorem substituteQuoted_through (k v pre NAME op D B : GoString) (hk : IsName k)
    (hN : IsName NAME) (hop : op ∈ [[61], [58], [35, 35]])
    (hpre : ¬ str "$$" ++ k <:+: pre) (hD : ¬ str "$$" ++ k <:+: D) :
    substituteQuoted (pre ++ braced NAME op D ++ B) k v
      = pre ++ braced NAME op D ++ substituteQuoted B k v := by
  rw [str_dollars] at hpre hD
  obtain ⟨hop36, hop34, _, _⟩ := operator_bytes op hop
  have hm : ∀ s, ¬ 34 :: (36 :: 36 :: (k ++ [34])) <+: s →
      (stripHead (str "\"$$" ++ k ++ str "\"") s).map
        (fun _ => (str "\"" ++ escapeNewlines v ++ str "\"", 3 + k.length + 1)) = none :=
    fun s hs => quoted_none k v s (by simpa [str_quote_dollars, str_quote] using hs)
  unfold substituteQuoted
  rw [List.append_assoc pre, rewriteAll_pass _ pre _ (fun s hs hsuf => hm _ (by
      rw [braced_append]
      exact quoted_not_head_before_braces k pre s _ hk hpre hs hsuf)),
    rewriteAll_over_braced _ 34 (36 :: 36 :: (k ++ [34])) NAME op D B hm (Or.inr rfl)
      (fun e => absurd e (by decide))
      (by
        intro hmem
        simp only [List.mem_cons, List.mem_append, List.mem_singleton, List.not_mem_nil,
          or_false] at hmem
        rcases hmem with e | e | e | e
        · omega
        · omega
        · exact hk.not_mem 125 (by decide) e
        · omega)
      (fun hin => hD (List.IsInfix.trans ⟨[34], [34], by simp⟩ hin))
      (by
        rw [braced_append, List.cons_prefix_cons]
        rintro ⟨h1, _⟩
        omega)
      ⟨hN.not_mem 36 (by decide), hN.not_mem 34 (by decide)⟩ ⟨hop36, hop34⟩,
    ← List.append_assoc pre]

/-- The pass of a braced form of a name goes through a text with a braced occurrence of
another name or another operator when `$${k` occurs neither in front of the occurrence nor in
its operand. -/
theorem braced_through (k opk : GoString) (f : GoString → Option GoString)
    (pre NAME op D B : GoString) (hk : IsName k) (hN : IsName NAME)
    (hopk : opk ∈ [[61], [58], [35, 35]]) (hop : op ∈ [[61], [58], [35, 35]])
    (hne : k ≠ NAME ∨ opk ≠ op)
    (hpre : ¬ str "$$\x7b" ++ k <:+: pre) (hD : ¬ str "$$\x7b" ++ k <:+: D) :
    rewriteAll (matchBraced k opk f) 0 (pre ++ braced NAME op D ++ B)
      = pre ++ braced NAME op D ++ rewriteAll (matchBraced k opk f) 0 B := by
  rw [str_dollars_brace] at hpre hD
  obtain ⟨hop36, hop34, _, o2, oq2, hop2, ho2⟩ := operator_bytes op hop
  obtain ⟨hk36, _, hk125, o, oq, hopk2, ho⟩ := operator_bytes opk hopk
  have hm : ∀ s, ¬ 36 :: (36 :: 123 :: (k ++ opk)) <+: s → matchBraced k opk f s = none :=
    fun s hs => braced_none k opk f s (by simpa [str_dollars_brace] using hs)
  have hcore : ∀ X : GoString, 36 :: 36 :: 123 :: (k ++ opk) <:+: X →
      [36, 36, 123] ++ k <:+: X :=
    fun X hin => List.IsInfix.trans ⟨[], opk, by simp⟩ hin
  rw [List.append_assoc pre, rewriteAll_pass _ pre _ (fun s hs hsuf => hm _ (by
      rw [braced_append]
      refine not_head_before_braces (123 :: (k ++ opk)) pre s _ (by simp) ?_
        (fun hin => hpre (hcore _ hin)) hs hsuf
      intro hmem
      rcases List.mem_cons.mp hmem with e | e
      · omega
      · rcases List.mem_append.mp e with e | e
        · exact hk.not_mem 36 (by decide) e
        · exact hk36 e)),
    rewriteAll_over_braced _ 36 (36 :: 123 :: (k ++ opk)) NAME op D B hm (Or.inl rfl)
      (fun _ => ⟨123 :: (k ++ opk), rfl⟩)
      (by
        intro hmem
        simp only [List.mem_cons, List.mem_append] at hmem
        rcases hmem with e | e | e | e
        · omega
        · omega
        · exact hk.not_mem 125 (by decide) e
        · exact hk125 e)
      (fun hin => hD (hcore _ hin))
      (by
        rw [braced_append, List.cons_prefix_cons, List.cons_prefix_cons, List.cons_append,
          List.cons_prefix_cons]
        rintro ⟨_, _, _, h4⟩
        rw [hopk2, hop2, List.append_assoc, List.cons_append] at h4
        obtain ⟨e1, e2⟩ := name_then_operator k NAME o o2 oq _ hk.no_operator hN.no_operator
          ho ho2 h4
        rcases hne with h | h
        · exact h e1
        · exact h (operator_eq_of_first opk op hopk hop o o2 oq oq2 hopk2 hop2 e2))
      ⟨hN.not_mem 36 (by decide), hN.not_mem 34 (by decide)⟩ ⟨hop36, hop34⟩,
    ← List.append_assoc pre]

/-- The pass of a braced form at an occurrence of it with balanced braces, when `$${k` does not
occur in front of the occurrence: the occurrence is replaced and the pass goes on behind
it. -/
theorem braced_at (k op : GoString) (f : GoString → Option GoString)
    (pre D B rep : GoString) (hk : IsName k)
    (hpre : ¬ str "$$\x7b" ++ k <:+: pre) (hbal : Balanced D) (hf : f D = some rep) :
    rewriteAll (matchBraced k op f) 0 (pre ++ braced k op D ++ B)
      = pre ++ rep ++ rewriteAll (matchBraced k op f) 0 B := by
  rw [str_dollars_brace] at hpre
  apply rewriteAll_frame _ pre _ B rep ?_ (braced_ne_nil k op D)
    (matchBraced_at k op D B rep f hbal hf)
  intro s hs hsuf
  apply braced_none_of_core
  rw [List.append_assoc s, braced_append, str_dollars_brace]
  refine not_head_before_braces (123 :: k) pre s _ (by simp) ?_ hpre hs hsuf
  intro hmem
  rcases List.mem_cons.mp hmem with e | e
  · omega
  · exact hk.not_mem 36 (by decide) e

/-! ## The passes of the keys in front of an occurrence -/

theorem bare_pattern_ne_nil (k : GoString) : str "$$" ++ k ≠ [] := by
  rw [str_dollars]
  simp

theorem braced_pattern_ne_nil (k : GoString) : str "$$\x7b" ++ k ≠ [] := by
  rw [str_dollars_brace]
  simp

theorem NoReference.unreferenced_left {k A R : GoString} (h : NoReference k (A ++ R)) :
    Unreferenced k A :=
  ⟨h.1.not_infix_left (bare_pattern_ne_nil k), h.2.not_infix_left (braced_pattern_ne_nil k)⟩

theorem NoReference.unreferenced_right {k A R : GoString} (h : NoReference k (A ++ R)) :
    Unreferenced k R :=
  ⟨h.1.not_infix_right (bare_pattern_ne_nil k), h.2.not_infix_right (braced_pattern_ne_nil k)⟩

/-- All forms of another name go through a text with a braced occurrence when the text in
front of the occurrence and the operand hold no reference to that name. -/
theorem applySubstitutors_through (k v pre NAME op D B : GoString) (hk : IsName k)
    (hN : IsName NAME) (hop : op ∈ [[61], [58], [35, 35]]) (hne : k ≠ NAME)
    (hpre : Unreferenced k pre) (hD : Unreferenced k D) :
    applySubstitutors specSubstitutors (pre ++ braced NAME op D ++ B) k v
      = pre ++ braced NAME op D ++ applySubstitutors specSubstitutors B k v := by
  simp only [specSubstitutors, applySubstitutors]
  rw [substituteQuoted_through k v pre NAME op D B hk hN hop hpre.1 hD.1]
  unfold substituteDefault substituteSubstr substituteStrip
  rw [braced_through k (str "=") _ pre NAME op D _ hk hN (by decide) hop (Or.inl hne) hpre.2
      hD.2,
    braced_through k (str ":") _ pre NAME op D _ hk hN (by decide) hop (Or.inl hne) hpre.2
      hD.2,
    braced_through k (str "##") _ pre NAME op D _ hk hN (by decide) hop (Or.inl hne) hpre.2
      hD.2,
    substituteBare_through k v pre NAME op D _ hk hN hop hpre.1 hD.1]

theorem applyKeys_through (params : Params) (ks : List GoString)
    (pre NAME op D B : GoString) (hN : IsName NAME) (hop : op ∈ [[61], [58], [35, 35]])
    (h : ∀ k ∈ ks, IsName k ∧ k ≠ NAME ∧ Unreferenced k pre ∧ Unreferenced k D) :
    applyKeys specSubstitutors params ks (pre ++ braced NAME op D ++ B)
      = pre ++ braced NAME op D ++ applyKeys specSubstitutors params ks B := by
  induction ks generalizing B with
  | nil => rfl
  | cons k rest ih =>
    obtain ⟨hk, hne, hpre, hD⟩ := h k (List.mem_cons_self _ _)
    rw [applyKeys, applyKeys, applySubstitutors_through k _ pre NAME op D B hk hN hop hne hpre hD]
    exact ih _ (fun k2 hk2 => h k2 (List.mem_cons_of_mem _ hk2))

/-- For a key of the map, `Inject` is: the passes of the keys that sort before it (each
greater than it), its own passes, and the passes of the keys that sort behind it. -/
theorem Inject_split (subs : List Substitutor) (params : Params) (hwf : params.WF)
    (NAME V : GoString) (hmem : (NAME, V) ∈ params.entries) :
    ∃ l1 l3 : List GoString,
      (∀ k ∈ l1, k ∈ params.entries.map Prod.fst ∧ k ≠ NAME ∧ strLess k NAME = false) ∧
      (∀ k ∈ l3, k ∈ params.entries.map Prod.fst) ∧
      ∀ text : GoString, Inject subs text params
        = applyKeys subs params l3
            (applySubstitutors subs (applyKeys subs params l1 text) NAME V) := by
  have hdesc := descendingKeys_sortReverse params hwf
  have hkey : NAME ∈ params.entries.map Prod.fst := List.mem_map_of_mem Prod.fst hmem
  have hNs : NAME ∈ sortReverse (collectKeys params) := hdesc.1.mem_iff.mpr hkey
  obtain ⟨l1, l3, hsplit⟩ := List.append_of_mem hNs
  have hnd : (sortReverse (collectKeys params)).Nodup := hdesc.1.nodup_iff.mpr hwf
  have hpw := hdesc.2
  rw [hsplit] at hnd hpw
  have hnonempty : params.isEmpty = false := by
    cases params with
    | none => simp [Params.entries] at hmem
    | some es =>
      cases es with
      | nil => simp [Params.entries] at hmem
      | cons e es => rfl
  refine ⟨l1, l3, ?_, ?_, ?_⟩
  · intro k hk
    refine ⟨?_, ?_, ?_⟩
    · apply hdesc.1.mem_iff.mp
      rw [hsplit]
      exact List.mem_append_left _ hk
    · intro e
      subst e
      exact (List.nodup_append.mp hnd).2.2 hk (List.mem_cons_self _ _)
    · exact strLess_asymm NAME k
        ((List.pairwise_append.mp hpw).2.2 k hk NAME (List.mem_cons_self _ _))
  · intro k hk
    apply hdesc.1.mem_iff.mp
    rw [hsplit]
    exact List.mem_append_right _ (List.mem_cons_of_mem _ hk)
  · intro text
    rw [Inject_eq_applyKeys subs text params hnonempty, hsplit, applyKeys_append, applyKeys,
      index_of_mem params hwf NAME V hmem]

/-- `Inject` on a text with a braced occurrence of a key of the map, when the passes of that
key put `R` in place of the occurrence: with no reference to a key in the text in front of the
occurrence and in `R`, and none to the key or a greater one in the operand, the output is the
text in front, `R`, and the output for the text behind. -/
theorem Inject_at_occurrence (params : Params) (NAME V pre op D post R : GoString)
    (hwf : params.WF) (hnames : ∀ k ∈ params.entries.map Prod.fst, IsName k)
    (hmem : (NAME, V) ∈ params.entries) (hop : op ∈ [[61], [58], [35, 35]])
    (hD : ∀ k ∈ params.entries.map Prod.fst, strLess k NAME = false → Unreferenced k D)
    (hS : Settled (params.entries.map Prod.fst) (pre ++ R) post)
    (hown : ∀ B, applySubstitutors specSubstitutors (pre ++ braced NAME op D ++ B) NAME V
      = pre ++ R ++ applySubstitutors specSubstitutors B NAME V) :
    Inject specSubstitutors (pre ++ braced NAME op D ++ post) params
      = pre ++ R ++ Inject specSubstitutors post params := by
  have hN : IsName NAME := hnames NAME (List.mem_map_of_mem Prod.fst hmem)
  obtain ⟨l1, l3, hl1, hl3, hI⟩ := Inject_split specSubstitutors params hwf NAME V hmem
  rw [hI, hI, applyKeys_through params l1 pre NAME op D post hN hop
      (fun k hk => ⟨hnames k (hl1 k hk).1, (hl1 k hk).2.1,
        (hS.1 k (hl1 k hk).1).unreferenced_left, hD k (hl1 k hk).1 (hl1 k hk).2.2⟩),
    hown, applyKeys_pass params l3 (pre ++ R) _ (fun k hk => hS.1 k (hl3 k hk))
      (fun hl => head_pass NAME V _ (head_applyKeys params l1 post (hS.2 hl)))]

/-! ## The passes of the key of an occurrence -/

theorem unreferenced_of_no_dollar (k text : GoString) (h : 36 ∉ text) : Unreferenced k text := by
  have key : ∀ p : GoString, ¬ 36 :: p <:+: text :=
    fun p e => h (e.subset (List.mem_cons_self _ _))
  refine ⟨?_, ?_⟩
  · rw [str_dollars]; exact key _
  · rw [str_dollars_brace]; exact key _

/-- The passes of `NAME` on a text with an occurrence of the substring form of `NAME`. -/
theorem own_pass_substr (NAME V pre B : GoString) (N : Nat) (hN : IsName NAME)
    (href : NoReference NAME (pre ++ takeChars N V)) :
    applySubstitutors specSubstitutors (pre ++ braced NAME (str ":") (decimal N) ++ B) NAME V
      = pre ++ takeChars N V ++ applySubstitutors specSubstitutors B NAME V := by
  have hpre := href.unreferenced_left
  have hD := unreferenced_of_no_dollar NAME (decimal N) (no_dollar_decimal N)
  simp only [specSubstitutors, applySubstitutors]
  rw [substituteQuoted_through NAME V pre NAME (str ":") (decimal N) B hN hN (by decide) hpre.1
    hD.1]
  unfold substituteDefault substituteSubstr substituteStrip
  rw [braced_through NAME (str "=") _ pre NAME (str ":") (decimal N) _ hN hN (by decide)
      (by decide) (Or.inr (by decide)) hpre.2 hD.2,
    braced_at NAME (str ":") _ pre (decimal N) _ (takeChars N V) hN hpre.2 (balanced_decimal N)
      (by simp [decimal_ne_nil, parseDigits_decimal]),
    braced_pass NAME (str "##") _ (pre ++ takeChars N V) _ href.2,
    substituteBare_pass NAME V (pre ++ takeChars N V) _ href.1]

/-- The passes of `NAME` on a text with an occurrence of the prefix-strip form of `NAME`. -/
theorem own_pass_strip (NAME V P pre B : GoString) (hN : IsName NAME) (hbal : Balanced P)
    (hP : Unreferenced NAME P) (href : NoReference NAME (pre ++ trimHead P V)) :
    applySubstitutors specSubstitutors (pre ++ braced NAME (str "##") P ++ B) NAME V
      = pre ++ trimHead P V ++ applySubstitutors specSubstitutors B NAME V := by
  have hpre := href.unreferenced_left
  simp only [specSubstitutors, applySubstitutors]
  rw [substituteQuoted_through NAME V pre NAME (str "##") P B hN hN (by decide) hpre.1 hP.1]
  unfold substituteDefault substituteSubstr substituteStrip
  rw [braced_through NAME (str "=") _ pre NAME (str "##") P _ hN hN (by decide)
      (by decide) (Or.inr (by decide)) hpre.2 hP.2,
    braced_through NAME (str ":") _ pre NAME (str "##") P _ hN hN (by decide)
      (by decide) (Or.inr (by decide)) hpre.2 hP.2,
    braced_at NAME (str "##") _ pre P _ (trimHead P V) hN hpre.2 hbal rfl,
    substituteBare_pass NAME V (pre ++ trimHead P V) _ href.1]

/-- The quoted and the default pass of `NAME` on a text with an occurrence of the default form
of `NAME`: the value is put in place of the occurrence, the default when the value is
empty. -/
theorem own_pass_default_start (NAME V D pre B : GoString) (hN : IsName NAME)
    (hbal : Balanced D) (hD : Unreferenced NAME D) (hpre : Unreferenced NAME pre) :
    substituteDefault (substituteQuoted (pre ++ braced NAME (str "=") D ++ B) NAME V) NAME V
      = pre ++ (if V = [] then D else V)
          ++ substituteDefault (substituteQuoted B NAME V) NAME V := by
  rw [substituteQuoted_through NAME V pre NAME (str "=") D B hN hN (by decide) hpre.1 hD.1]
  unfold substituteDefault
  rw [braced_at NAME (str "=") _ pre D _ (if V = [] then D else V) hN hpre.2 hbal rfl]

/-- The passes of `NAME` on a text with an occurrence of the default form of `NAME`, for a
value that is not empty. -/
theorem own_pass_default (NAME V D pre B : GoString) (hN : IsName NAME) (hV : V ≠ [])
    (hbal : Balanced D) (hD : Unreferenced NAME D) (href : NoReference NAME (pre ++ V)) :
    applySubstitutors specSubstitutors (pre ++ braced NAME (str "=") D ++ B) NAME V
      = pre ++ V ++ applySubstitutors specSubstitutors B NAME V := by
  have h := own_pass_default_start NAME V D pre B hN hbal hD href.unreferenced_left
  rw [if_neg hV] at h
  simp only [specSubstitutors, applySubstitutors]
  rw [h]
  unfold substituteSubstr substituteStrip
  rw [braced_pass NAME (str ":") _ (pre ++ V) _ href.2,
    braced_pass NAME (str "##") _ (pre ++ V) _ href.2,
    substituteBare_pass NAME V (pre ++ V) _ href.1]

/-- `Inject` on a text with an occurrence of the default form of a key bound to the empty
string: the output is that for the text with the default in place of the occurrence. -/
theorem Inject_default_empty (params : Params) (NAME pre D post : GoString) (hwf : params.WF)
    (hnames : ∀ k ∈ params.entries.map Prod.fst, IsName k)
    (hmem : (NAME, []) ∈ params.entries) (hbal : Balanced D)
    (hS : Settled ((params.entries.map Prod.fst).filter (fun k => strLess k NAME = false))
      (pre ++ D) post) :
    Inject specSubstitutors (pre ++ braced NAME (str "=") D ++ post) params
      = Inject specSubstitutors (pre ++ D ++ post) params := by
  have hkey : NAME ∈ params.entries.map Prod.fst := List.mem_map_of_mem Prod.fst hmem
  have hN : IsName NAME := hnames NAME hkey
  have href : ∀ k ∈ params.entries.map Prod.fst, strLess k NAME = false →
      NoReference k (pre ++ D) :=
    fun k hk hlt => hS.1 k (List.mem_filter.mpr ⟨hk, by simp [hlt]⟩)
  have hown := href NAME hkey (strLess_irrefl NAME)
  obtain ⟨l1, l3, hl1, _, hI⟩ := Inject_split specSubstitutors params hwf NAME [] hmem
  have hhead : (pre ++ D).getLast? = some 34 →
      (applyKeys specSubstitutors params l1 post).head? ≠ some 36 :=
    fun hl => head_applyKeys params l1 post (hS.2 hl)
  rw [hI, hI, applyKeys_through params l1 pre NAME (str "=") D post hN (by decide)
      (fun k hk => ⟨hnames k (hl1 k hk).1, (hl1 k hk).2.1,
        (href k (hl1 k hk).1 (hl1 k hk).2.2).unreferenced_left,
        (href k (hl1 k hk).1 (hl1 k hk).2.2).unreferenced_right⟩),
    applyKeys_pass params l1 (pre ++ D) post
      (fun k hk => href k (hl1 k hk).1 (hl1 k hk).2.2) hS.2]
  congr 1
  generalize applyKeys specSubstitutors params l1 post = B1 at hhead ⊢
  have h1 := own_pass_default_start NAME [] D pre B1 hN hbal hown.unreferenced_right
    hown.unreferenced_left
  rw [if_pos rfl] at h1
  have h2 : substituteDefault (substituteQuoted (pre ++ D ++ B1) NAME []) NAME []
      = pre ++ D ++ substituteDefault (substituteQuoted B1 NAME []) NAME [] := by
    rw [substituteQuoted_pass NAME [] (pre ++ D) _ hown.1 hhead]
    unfold substituteDefault
    rw [braced_pass NAME (str "=") _ (pre ++ D) _ hown.2]
  simp only [specSubstitutors, applySubstitutors]
  rw [h1, h2]

/-! ## The quoted form -/

theorem eq_of_append_quote (s u A : GoString) (hA : 34 ∉ A) (h : s ++ 34 :: u = A ++ [34]) :
    s = A := by
  induction s generalizing A with
  | nil =>
    cases A with
    | nil => rfl
    | cons a A =>
      rw [List.nil_append, List.cons_append] at h
      exact absurd (by simp [(List.cons.inj h).1]) hA
  | cons x s ih =>
    cases A with
    | nil =>
      rw [List.cons_append, List.nil_append] at h
      have := (List.cons.inj h).2
      simp at this
    | cons a A =>
      rw [List.cons_append, List.cons_append] at h
      obtain ⟨hx, h2⟩ := List.cons.inj h
      rw [hx, ih A (fun e => hA (List.mem_cons_of_mem a e)) h2]

/-- The quoted pass at a quoted occurrence of a key without `"`, when `$$NAME` does not occur
in front of the occurrence: the occurrence is replaced and the pass goes on behind it. -/
theorem substituteQuoted_at (NAME V pre B : GoString) (hN : 34 ∉ NAME)
    (hpre : ¬ str "$$" ++ NAME <:+: pre) :
    substituteQuoted (pre ++ quoted NAME ++ B) NAME V
      = pre ++ (str "\"" ++ escapeNewlines V ++ str "\"") ++ substituteQuoted B NAME V := by
  rw [str_dollars] at hpre
  have hq : quoted NAME = 34 :: 36 :: 36 :: (NAME ++ [34]) := by
    simp [quoted, str_quote_dollars, str_quote]
  unfold substituteQuoted
  apply rewriteAll_frame _ pre (quoted NAME) B _ ?_ (by rw [hq]; simp)
  · rw [show quoted NAME ++ B = (str "\"$$" ++ NAME ++ str "\"") ++ B from rfl,
      stripHead_append, length_quoted]
    rfl
  · intro s hs hsuf
    apply quoted_none
    intro hp
    have hp1 : 34 :: 36 :: 36 :: (NAME ++ [34])
        <+: s ++ (34 :: 36 :: 36 :: (NAME ++ [34]) ++ B) := by
      simpa [hq, str_quote_dollars, str_quote] using hp
    cases s with
    | nil => exact hs rfl
    | cons x s1 =>
      rw [List.cons_append, List.cons_prefix_cons] at hp1
      obtain ⟨_, hp2⟩ := hp1
      by_cases hs1 : s1 = []
      · subst hs1
        rw [List.nil_append, List.cons_append, List.cons_prefix_cons] at hp2
        have := hp2.1
        omega
      · have hsuf1 : s1 <:+ pre := (List.suffix_cons x s1).trans hsuf
        rcases head_append_cases _ s1 _ hp2 with h1 | ⟨u, hu, hpu, huX⟩
        · apply hpre
          refine List.IsInfix.trans ?_ (h1.isInfix.trans hsuf1.isInfix)
          exact ⟨[], [34], by simp⟩
        · cases u with
          | nil => exact hu rfl
          | cons c u =>
            rw [List.cons_append, List.cons_prefix_cons] at huX
            have hc := huX.1
            subst hc
            have hA : 34 ∉ 36 :: 36 :: NAME := by
              intro hmem
              rcases List.mem_cons.mp hmem with e | e
              · omega
              · rcases List.mem_cons.mp e with e | e
                · omega
                · exact hN e
            have he := eq_of_append_quote s1 u (36 :: 36 :: NAME) hA (by
              rw [← hpu]
              simp)
            apply hpre
            show 36 :: 36 :: NAME <:+: pre
            rw [← he]
            exact hsuf1.isInfix

/-- The passes of the one key on a text with a quoted occurrence of it. -/
theorem own_pass_quoted (NAME V pre B : GoString) (hN : 34 ∉ NAME)
    (href : NoReference NAME (pre ++ (str "\"" ++ escapeNewlines V ++ str "\""))) :
    applySubstitutors specSubstitutors (pre ++ quoted NAME ++ B) NAME V
      = pre ++ (str "\"" ++ escapeNewlines V ++ str "\"")
          ++ applySubstitutors specSubstitutors B NAME V := by
  simp only [specSubstitutors, applySubstitutors]
  rw [substituteQuoted_at NAME V pre B hN href.unreferenced_left.1]
  unfold substituteDefault substituteSubstr substituteStrip
  rw [braced_pass NAME (str "=") _ (pre ++ (str "\"" ++ escapeNewlines V ++ str "\"")) _ href.2,
    braced_pass NAME (str ":") _ (pre ++ (str "\"" ++ escapeNewlines V ++ str "\"")) _ href.2,
    braced_pass NAME (str "##") _ (pre ++ (str "\"" ++ escapeNewlines V ++ str "\"")) _ href.2,
    substituteBare_pass NAME V (pre ++ (str "\"" ++ escapeNewlines V ++ str "\"")) _ href.1]

/-! ## Characters -/

theorem takeChars_of_count (fuel : Nat) (s : GoString) (n : Nat) (hf : s.length ≤ fuel)
    (hn : countChars fuel s ≤ n) : takeChars n s = s := by
  induction fuel generalizing s n with
  | zero =>
    have : s = [] := List.length_eq_zero.mp (by omega)
    subst this
    cases n <;> rfl
  | succ fuel ih =>
    cases s with
    | nil => cases n <;> rfl
    | cons b rest =>
      rw [countChars] at hn
      cases n with
      | zero => omega
      | succ n =>
        rw [takeChars, ih (rest.drop (charWidth (b :: rest) - 1)) n
          (by
            rw [List.length_drop]
            simp only [List.length_cons] at hf
            omega)
          (by omega), List.take_append_drop]

/-- A string with at most `n` characters is its first `n` characters. -/
theorem takeChars_of_charLength_le (s : GoString) (n : Nat) (h : charLength s ≤ n) :
    takeChars n s = s :=
  takeChars_of_count s.length s n (Nat.le_refl _) h

/-- The first `n` characters of a string are a beginning of the string. -/
theorem takeChars_head (n : Nat) (s : GoString) : takeChars n s <+: s := by
  induction n generalizing s with
  | zero => rw [takeChars]; exact List.nil_prefix
  | succ n ih =>
    cases s with
    | nil => rw [takeChars]
    | cons b rest =>
      rw [takeChars, List.cons_prefix_cons]
      refine ⟨rfl, ?_⟩
      obtain ⟨t, ht⟩ := ih (rest.drop (charWidth (b :: rest) - 1))
      refine ⟨t, ?_⟩
      rw [List.append_assoc, ht, List.take_append_drop]

/-- On a string of bytes below 128 (ASCII), the first `n` characters are the first `n`
bytes. -/
theorem takeChars_ascii (n : Nat) (s : GoString) (h : ∀ b ∈ s, b < 128) :
    takeChars n s = s.take n := by
  induction n generalizing s with
  | zero => rw [takeChars]; rfl
  | succ n ih =>
    cases s with
    | nil => rw [takeChars]; rfl
    | cons b rest =>
      have hb : b < 128 := h b (List.mem_cons_self _ _)
      have hw : charWidth (b :: rest) = 1 := by
        unfold charWidth
        simp only
        rw [if_neg (by omega), if_neg (by omega), if_neg (by omega)]
      rw [takeChars, hw]
      simp only [Nat.sub_self, List.take_zero, List.drop_zero, List.nil_append,
        List.take_succ_cons]
      rw [ih rest (fun c hc => h c (List.mem_cons_of_mem _ hc))]

/-! ## The turn of a key -/

/-- The sorted keys of a map are the keys before `NAME`, `NAME`, and the keys behind it. -/
theorem sortReverse_at_key (params : Params) (hwf : params.WF) (NAME : GoString)
    (hkey : NAME ∈ params.entries.map Prod.fst) :
    sortReverse (collectKeys params) = keysBefore params NAME ++ NAME :: keysBehind params NAME := by
  have hdesc := descendingKeys_sortReverse params hwf
  have hNs : NAME ∈ sortReverse (collectKeys params) := hdesc.1.mem_iff.mpr hkey
  obtain ⟨l1, l3, hsplit⟩ := List.append_of_mem hNs
  have hpw := hdesc.2
  rw [hsplit] at hpw
  have h1 : ∀ k ∈ l1, strLess NAME k = true :=
    fun k hk => (List.pairwise_append.mp hpw).2.2 k hk NAME (List.mem_cons_self _ _)
  have h3 : ∀ k ∈ l3, strLess k NAME = true :=
    fun k hk => List.rel_of_pairwise_cons (List.pairwise_append.mp hpw).2.1 hk
  have hb : keysBefore params NAME = l1 := by
    unfold keysBefore
    rw [hsplit, List.filter_append, List.filter_cons_of_neg (by simp [strLess_irrefl]),
      List.filter_eq_self.mpr (fun k hk => h1 k hk),
      List.filter_eq_nil_iff.mpr (fun k hk => by simp [strLess_asymm k NAME (h3 k hk)])]
    simp
  have ha : keysBehind params NAME = l3 := by
    unfold keysBehind
    rw [hsplit, List.filter_append, List.filter_cons_of_neg (by simp [strLess_irrefl]),
      List.filter_eq_self.mpr (fun k hk => h3 k hk),
      List.filter_eq_nil_iff.mpr (fun k hk => by simp [strLess_asymm NAME k (h1 k hk)])]
    simp
  rw [hb, ha, hsplit]

/-- `Inject` is the passes of the keys before `NAME`, then those of `NAME` and of the keys
behind it. -/
theorem Inject_eq_turn (subs : List Substitutor) (params : Params) (hwf : params.WF)
    (NAME V text : GoString) (hmem : (NAME, V) ∈ params.entries) :
    Inject subs text params = passesFrom subs params NAME (textAtTurn subs params NAME text) := by
  have hnonempty : params.isEmpty = false := by
    cases params with
    | none => simp [Params.entries] at hmem
    | some es =>
      cases es with
      | nil => simp [Params.entries] at hmem
      | cons e es => rfl
  rw [Inject_eq_applyKeys subs text params hnonempty,
    sortReverse_at_key params hwf NAME (List.mem_map_of_mem Prod.fst hmem), applyKeys_append]
  rfl

/-- When the turn of `NAME` comes with an occurrence in the text that the passes of `NAME`
replace by `R`, and the text in front of the occurrence followed by `R` is settled for `NAME`
and the keys behind it: the output of `Inject` is the text in front, `R`, and what the passes
of `NAME` and of the keys behind it make of the text behind the occurrence. -/
theorem Inject_at_turn (params : Params) (NAME V pre occ post R text : GoString)
    (hwf : params.WF) (hmem : (NAME, V) ∈ params.entries)
    (hturn : textAtTurn specSubstitutors params NAME text = pre ++ occ ++ post)
    (hS : Settled (NAME :: keysBehind params NAME) (pre ++ R) post)
    (hown : applySubstitutors specSubstitutors (pre ++ occ ++ post) NAME V
      = pre ++ R ++ applySubstitutors specSubstitutors post NAME V) :
    Inject specSubstitutors text params
      = pre ++ R ++ passesFrom specSubstitutors params NAME post := by
  rw [Inject_eq_turn specSubstitutors params hwf NAME V text hmem, hturn]
  unfold passesFrom
  rw [applyKeys, applyKeys, index_of_mem params hwf NAME V hmem, hown,
    applyKeys_pass params (keysBehind params NAME) (pre ++ R) _
      (fun k hk => hS.1 k (List.mem_cons_of_mem _ hk))
      (fun hl => head_pass NAME V post (hS.2 hl))]

/-- When the turn of a key bound to the empty string comes with an occurrence of its default
form in the text: the output of `Inject` is what the passes of that key and of the keys behind
it make of the text with the default in place of the occurrence. -/
theorem Inject_default_empty_at_turn (params : Params) (NAME pre D post text : GoString)
    (hwf : params.WF) (hN : IsName NAME) (hmem : (NAME, []) ∈ params.entries)
    (hbal : Balanced D)
    (hturn : textAtTurn specSubstitutors params NAME text
      = pre ++ braced NAME (str "=") D ++ post)
    (hS : Settled [NAME] (pre ++ D) post) :
    Inject specSubstitutors text params
      = passesFrom specSubstitutors params NAME (pre ++ D ++ post) := by
  have hown := hS.1 NAME (List.mem_singleton_self NAME)
  rw [Inject_eq_turn specSubstitutors params hwf NAME [] text hmem, hturn]
  unfold passesFrom
  rw [applyKeys, applyKeys, index_of_mem params hwf NAME [] hmem]
  congr 1
  have h1 := own_pass_default_start NAME [] D pre post hN hbal hown.unreferenced_right
    hown.unreferenced_left
  rw [if_pos rfl] at h1
  have h2 : substituteDefault (substituteQuoted (pre ++ D ++ post) NAME []) NAME []
      = pre ++ D ++ substituteDefault (substituteQuoted post NAME []) NAME [] := by
    rw [substituteQuoted_pass NAME [] (pre ++ D) _ hown.1 hS.2]
    unfold substituteDefault
    rw [braced_pass NAME (str "=") _ (pre ++ D) _ hown.2]
  simp only [specSubstitutors, applySubstitutors]
  rw [h1, h2]

/-- When the turn of `NAME` comes with an occurrence in the text that the passes of `NAME`
replace by `R`: the output of `Inject` is what the passes of the keys behind `NAME` make of the
text in front, `R`, and what the passes of `NAME` make of the text behind the occurrence. -/
theorem Inject_after_turn (params : Params) (NAME V pre occ post R text : GoString)
    (hwf : params.WF) (hmem : (NAME, V) ∈ params.entries)
    (hturn : textAtTurn specSubstitutors params NAME text = pre ++ occ ++ post)
    (hown : applySubstitutors specSubstitutors (pre ++ occ ++ post) NAME V
      = pre ++ R ++ applySubstitutors specSubstitutors post NAME V) :
    Inject specSubstitutors text params
      = applyKeys specSubstitutors params (keysBehind params NAME)
          (pre ++ R ++ applySubstitutors specSubstitutors post NAME V) := by
  rw [Inject_eq_turn specSubstitutors params hwf NAME V text hmem, hturn]
  unfold passesFrom
  rw [applyKeys, index_of_mem params hwf NAME V hmem, hown]

/-- A text settled for a key and for a list of keys is settled for the list with the key in
front. -/
theorem settled_with_key (k : GoString) (keys : List GoString) (W post : GoString)
    (hk : NoReference k W) (hS : Settled keys W post) : Settled (k :: keys) W post :=
  ⟨fun j hj => by
    rcases List.mem_cons.mp hj with h | h
    · rw [h]; exact hk
    · exact hS.1 j h, hS.2⟩

/-! ## Claims about `Inject` -/

/-- C3: for every text, `Inject` returns the text itself for the nil map and for the empty map;
no substitutor is run, whatever the list of substitutors holds. -/
theorem Inject_nil_or_empty (subs : List Substitutor) (text : GoString) :
    Inject subs text none = text ∧ Inject subs text (some []) = text :=
  ⟨rfl, rfl⟩

/-- C4: for a non-empty map, `Inject` is the specification's procedure: with `ks` the keys in
descending byte-wise lexicographic order, every substitutor of the list is applied in list order
for the first key, then for the next key on the resulting text, and so on. -/
theorem Inject_descending_order (subs : List Substitutor) (text : GoString) (params : Params)
    (ks : List GoString) (hne : params.isEmpty = false) (hks : DescendingKeys params ks) :
    Inject subs text params = applyKeys subs params ks text := by
  rw [Inject_eq_applyKeys subs text params hne, collectKeys_eq,
    sortReverse_unique _ ks hks.1 hks.2]

/-- C5: when a map holds keys `A` and `B` with `A` a proper prefix of `B`, the keys `Inject`
iterates split as `l1 ++ B :: l2 ++ A :: l3` with `A` nowhere before `B`, and `Inject` runs the
whole substitutor list for `B` before it runs the first substitutor for `A`. -/
theorem Inject_longer_key_first (subs : List Substitutor) (params : Params) (A B : GoString)
    (hwf : params.WF) (hA : A ∈ params.entries.map Prod.fst)
    (hB : B ∈ params.entries.map Prod.fst) (hpre : A <+: B) (hne : A ≠ B) :
    ∃ l1 l2 l3 : List GoString,
      sortReverse (collectKeys params) = l1 ++ B :: (l2 ++ A :: l3) ∧
      A ∉ l1 ∧ A ∉ l2 ∧
      ∀ text : GoString,
        Inject subs text params =
          applyKeys subs params l3
            (applySubstitutors subs
              (applyKeys subs params l2
                (applySubstitutors subs (applyKeys subs params l1 text) B (params.index B)))
              A (params.index A)) := by
  have hlt : strLess A B = true := strLess_of_proper_head A B hpre hne
  have hdesc := descendingKeys_sortReverse params hwf
  have hnd : (sortReverse (collectKeys params)).Nodup :=
    hdesc.1.nodup_iff.mpr hwf
  have hBs : B ∈ sortReverse (collectKeys params) := hdesc.1.mem_iff.mpr hB
  have hAs : A ∈ sortReverse (collectKeys params) := hdesc.1.mem_iff.mpr hA
  obtain ⟨l1, r, hsplit⟩ := List.append_of_mem hBs
  have hpw := hdesc.2
  rw [hsplit] at hpw hAs hnd
  have hA1 : A ∉ l1 := by
    intro hmem
    have := (List.pairwise_append.mp hpw).2.2 A hmem B (List.mem_cons_self _ _)
    rw [strLess_asymm A B hlt] at this
    exact absurd this (by decide)
  have hAr : A ∈ r := by
    rcases List.mem_append.mp hAs with h | h
    · exact absurd h hA1
    · rcases List.mem_cons.mp h with h | h
      · exact absurd h hne
      · exact h
  obtain ⟨l2, l3, hr⟩ := List.append_of_mem hAr
  have hA2 : A ∉ l2 := by
    intro hmem
    rw [hr] at hnd
    have h1 := (List.nodup_append.mp hnd).2.1
    have h2 := (List.nodup_cons.mp h1).2
    exact (List.nodup_append.mp h2).2.2 hmem (List.mem_cons_self _ _)
  refine ⟨l1, l2, l3, by rw [hsplit, hr], hA1, hA2, ?_⟩
  intro text
  have hnonempty : params.isEmpty = false := by
    cases params with
    | none => simp [Params.entries] at hA
    | some es =>
      cases es with
      | nil => simp [Params.entries] at hA
      | cons e es => rfl
  rw [Inject_eq_applyKeys subs text params hnonempty, hsplit, hr, applyKeys_append, applyKeys,
    applyKeys_append, applyKeys]

/-- C10: the output of `Inject` does not depend on the order in which `range` enumerates the
map: two enumerations of the same entries (distinct keys) give the same output. -/
theorem Inject_enumeration_independent (subs : List Substitutor) (text : GoString)
    (es1 es2 : List (GoString × GoString)) (hperm : es1.Perm es2)
    (hnd : (es1.map Prod.fst).Nodup) :
    Inject subs text (some es1) = Inject subs text (some es2) := by
  cases es1 with
  | nil =>
    have : es2 = [] := List.Perm.eq_nil hperm.symm
    subst this; rfl
  | cons e es =>
    cases es2 with
    | nil => exact absurd (List.Perm.eq_nil hperm) (by simp)
    | cons e2 es2 =>
      have hwf2 : Params.WF (some (e2 :: es2)) := (hperm.map Prod.fst).nodup_iff.mp hnd
      have hd2 := descendingKeys_sortReverse (some (e2 :: es2)) hwf2
      have hk : sortReverse (collectKeys (some (e :: es)))
          = sortReverse (collectKeys (some (e2 :: es2))) := by
        rw [collectKeys_eq (some (e :: es))]
        exact sortReverse_unique _ _ (hd2.1.trans (hperm.map Prod.fst).symm) hd2.2
      rw [Inject_eq_applyKeys subs text (some (e :: es)) rfl,
        Inject_eq_applyKeys subs text (some (e2 :: es2)) rfl, hk]
      exact applyKeys_congr subs _ _ (index_perm _ _ hperm hnd) _ _


/-! ## Claims about `InjectSafe` -/

/-- C1: the claim asks that the entry marshalled at the first build-keyed position of the
substituted document is always an entry of the original document. Here `InjectSafe` is run on
the document `$$K: $$SECRET` with `K` bound to `build`: the original has no build-keyed entry,
the loop of inject.go:62-67 stores nothing, and the build section that is marshalled is the
substituted one, with the value of `SECRET` in it. -/
theorem InjectSafe_build_section_from_substitution :
    parse flatYaml (str "$$K: $$SECRET\n") = ([⟨str "$$K", str "$$SECRET"⟩], none) ∧
    parse flatYaml
        (Inject specSubstitutors (str "$$K: $$SECRET\n")
          (some [(str "K", str "build"), (str "SECRET", str "s3cr3t")]))
      = ([⟨str "build", str "s3cr3t"⟩], none) ∧
    marshalled flatYaml specSubstitutors (str "$$K: $$SECRET\n")
        (some [(str "K", str "build"), (str "SECRET", str "s3cr3t")])
      = some [⟨str "build", str "s3cr3t"⟩] ∧
    isBuild flatYaml ⟨str "build", str "s3cr3t"⟩ = true ∧
    (⟨str "build", str "s3cr3t"⟩ : MapItem GoString) ∉
      [(⟨str "$$K", str "$$SECRET"⟩ : MapItem GoString)] ∧
    InjectSafe flatYaml specSubstitutors (str "$$K: $$SECRET\n")
        (some [(str "K", str "build"), (str "SECRET", str "s3cr3t")])
      = (str "build: s3cr3t\n", none) := by
  decide

/-- C2: when both parses succeed and both documents hold a build-keyed entry, the slice that
`InjectSafe` marshals is `after` with exactly the first build-keyed position changed, to a
build-keyed entry of `before`; length and all other positions are those of `after`. -/
theorem InjectSafe_splices_build {ι ε : Type} (x : Extern ι ε) (subs : List Substitutor)
    (raw : GoString) (params : Params) (before after : MapSlice ι)
    (hne : params.isEmpty = false) (hb : parse x raw = (before, none))
    (ha : parse x (Inject subs raw params) = (after, none))
    (hbb : ∃ e ∈ before, isBuild x e = true) (hab : ∃ e ∈ after, isBuild x e = true) :
    ∃ doc : MapSlice ι,
      marshalled x subs raw params = some doc ∧
      InjectSafe x subs raw params = x.Marshal doc ∧
      BuildSpliced x before after doc := by
  obtain ⟨hI, hM⟩ := InjectSafe_of_parsed x subs raw params before after hne hb ha
  obtain ⟨vv, hlast, hdoc⟩ := bindBuild_both x before after hbb hab
  refine ⟨bindBuild x before after, hM, hI, after.findIdx (isBuild x), vv, ?_, ?_, ?_, ?_, ?_, ?_, ?_⟩
  · have hlt : after.findIdx (isBuild x) < after.length := List.findIdx_lt_length_of_exists hab
    exact ⟨after[after.findIdx (isBuild x)], List.getElem?_eq_getElem hlt, List.findIdx_getElem⟩
  · intro j v hj hv
    have hjl : j < after.length := Nat.lt_of_lt_of_le hj (List.findIdx_le_length _)
    have := List.not_of_lt_findIdx hj
    rw [List.getElem?_eq_getElem hjl] at hv
    cases hv
    exact this
  · exact (List.mem_filter.mp (List.mem_of_getLast?_eq_some hlast)).1
  · exact (List.mem_filter.mp (List.mem_of_getLast?_eq_some hlast)).2
  · rw [hdoc, List.length_set]
  · rw [hdoc]
    exact List.getElem?_set_self (List.findIdx_lt_length_of_exists hab)
  · intro j hj
    rw [hdoc]
    exact List.getElem?_set_ne (Ne.symm hj)

/-- C2 on a document with a build section and a deploy section that name the same key. -/
theorem InjectSafe_splices_build_witness :
    ∃ doc : MapSlice GoString,
      marshalled flatYaml specSubstitutors (str "build: echo $$TOKEN\ndeploy: $$TOKEN\n")
          (some [(str "TOKEN", str "FOO")]) = some doc ∧
      InjectSafe flatYaml specSubstitutors (str "build: echo $$TOKEN\ndeploy: $$TOKEN\n")
          (some [(str "TOKEN", str "FOO")]) = flatYaml.Marshal doc ∧
      BuildSpliced flatYaml
        [⟨str "build", str "echo $$TOKEN"⟩, ⟨str "deploy", str "$$TOKEN"⟩]
        [⟨str "build", str "echo FOO"⟩, ⟨str "deploy", str "FOO"⟩] doc :=
  InjectSafe_splices_build flatYaml specSubstitutors
    (str "build: echo $$TOKEN\ndeploy: $$TOKEN\n") (some [(str "TOKEN", str "FOO")])
    [⟨str "build", str "echo $$TOKEN"⟩, ⟨str "deploy", str "$$TOKEN"⟩]
    [⟨str "build", str "echo FOO"⟩, ⟨str "deploy", str "FOO"⟩]
    (by decide) (by decide) (by decide)
    ⟨⟨str "build", str "echo $$TOKEN"⟩, by decide, by decide⟩
    ⟨⟨str "build", str "echo FOO"⟩, by decide, by decide⟩

/-- C6: for a non-empty map, when parsing the original text fails, or parsing the substituted
text fails, `InjectSafe` returns the original text with that parse error, and marshals
nothing. -/
theorem InjectSafe_parse_failure {ι ε : Type} (x : Extern ι ε) (subs : List Substitutor)
    (raw : GoString) (params : Params) (err : ε) (hne : params.isEmpty = false)
    (hfail : (parse x raw).2 = some err ∨
      ((parse x raw).2 = none ∧ (parse x (Inject subs raw params)).2 = some err)) :
    InjectSafe x subs raw params = (raw, some err) ∧ marshalled x subs raw params = none := by
  unfold InjectSafe marshalled
  simp only [hne, Bool.false_eq_true, if_false]
  rcases hfail with h | ⟨h1, h2⟩
  · rcases hp : parse x raw with ⟨before, e⟩
    rw [hp] at h
    simp only at h
    subst h
    exact ⟨rfl, rfl⟩
  · rcases hp : parse x raw with ⟨before, e⟩
    rw [hp] at h1
    simp only at h1
    subst h1
    rcases hq : parse x (Inject subs raw params) with ⟨after, e2⟩
    rw [hq] at h2
    simp only at h2
    subst h2
    exact ⟨rfl, rfl⟩

/-- C6 on a document that parses and whose substituted text does not. -/
theorem InjectSafe_parse_failure_witness :
    ((parse flatYaml (str "a: b$$N\n")).2 = none ∧
      (parse flatYaml
        (Inject specSubstitutors (str "a: b$$N\n") (some [(str "N", str "\nfoo")]))).2
        = some YamlError.cannotUnmarshal) ∧
    InjectSafe flatYaml specSubstitutors (str "a: b$$N\n") (some [(str "N", str "\nfoo")])
      = (str "a: b$$N\n", some YamlError.cannotUnmarshal) ∧
    marshalled flatYaml specSubstitutors (str "a: b$$N\n") (some [(str "N", str "\nfoo")])
      = none :=
  ⟨by decide,
    InjectSafe_parse_failure flatYaml specSubstitutors (str "a: b$$N\n")
      (some [(str "N", str "\nfoo")]) YamlError.cannotUnmarshal (by decide)
      (Or.inr (by decide))⟩

/-- C7: the claim asks that the first build-keyed entry of the original document is the one
spliced in. Here the original holds two build-keyed entries: the inner loop of inject.go:62-67
has no `break`, each build-keyed entry overwrites the one stored before it, and the entry that
is marshalled at the build position is the last one, not the first. -/
theorem InjectSafe_last_build_entry_stored :
    parse flatYaml (str "build: make $$T\nbuild: rm\ndeploy: $$T\n")
      = ([⟨str "build", str "make $$T"⟩, ⟨str "build", str "rm"⟩,
          ⟨str "deploy", str "$$T"⟩], none) ∧
    parse flatYaml
        (Inject specSubstitutors (str "build: make $$T\nbuild: rm\ndeploy: $$T\n")
          (some [(str "T", str "s")]))
      = ([⟨str "build", str "make s"⟩, ⟨str "build", str "rm"⟩,
          ⟨str "deploy", str "s"⟩], none) ∧
    List.find? (isBuild flatYaml)
        [⟨str "build", str "make $$T"⟩, ⟨str "build", str "rm"⟩, ⟨str "deploy", str "$$T"⟩]
      = some ⟨str "build", str "make $$T"⟩ ∧
    marshalled flatYaml specSubstitutors (str "build: make $$T\nbuild: rm\ndeploy: $$T\n")
        (some [(str "T", str "s")])
      = some [⟨str "build", str "rm"⟩, ⟨str "build", str "rm"⟩, ⟨str "deploy", str "s"⟩] ∧
    InjectSafe flatYaml specSubstitutors (str "build: make $$T\nbuild: rm\ndeploy: $$T\n")
        (some [(str "T", str "s")])
      = (str "build: rm\nbuild: rm\ndeploy: s\n", none) := by
  decide

/-! ## Claims about the notation -/

/-- C8: for every text without two consecutive `$` and every map, `Inject` over the
substitutors of the specification returns the text. -/
theorem Inject_no_double_dollar (text : GoString) (params : Params)
    (hno : ¬ str "$$" <:+: text) : Inject specSubstitutors text params = text := by
  cases hp : params.isEmpty with
  | true => unfold Inject; rw [hp]; rfl
  | false =>
    rw [Inject_eq_applyKeys specSubstitutors text params hp]
    exact applyKeys_id specSubstitutors params _ text
      (fun s hs k v => specSubstitutors_id_of_no_dollars text k v hno s hs)

/-- C8 on the text of the test "Should not replace vars with single $". -/
theorem Inject_no_double_dollar_witness :
    ¬ str "$$" <:+: str "echo $FOO $BAR" ∧
      Inject specSubstitutors (str "echo $FOO $BAR") (some [(str "FOO", str "BAZ")])
        = str "echo $FOO $BAR" :=
  ⟨by decide, Inject_no_double_dollar _ _ (by decide)⟩
/-- C9: for a map with the single key `NAME` bound to a value without `$`, and a text without
`"` and without `{`, `Inject` over the substitutors of the specification returns the text with
every occurrence of `$$NAME` replaced by the value and everything else unchanged; that is what
the bare substitutor alone returns. -/
theorem Inject_single_bare (NAME V text : GoString) (_hV : 36 ∉ V) (hq : 34 ∉ text)
    (hb : 123 ∉ text) :
    ReplacedAll (str "$$" ++ NAME) V text (Inject specSubstitutors text (some [(NAME, V)])) ∧
      Inject specSubstitutors text (some [(NAME, V)]) = substituteBare text NAME V := by
  have h := Inject_single_eq_substituteBare NAME V text hq hb
  rw [h]
  exact ⟨substituteBare_replacedAll NAME V text, rfl⟩

/-- C9 on the text of the test "Should replace vars with $$". -/
theorem Inject_single_bare_witness :
    (36 ∉ str "BAZ" ∧ 34 ∉ str "echo $$FOO $BAR" ∧ 123 ∉ str "echo $$FOO $BAR") ∧
    ReplacedAll (str "$$" ++ str "FOO") (str "BAZ") (str "echo $$FOO $BAR")
      (Inject specSubstitutors (str "echo $$FOO $BAR") (some [(str "FOO", str "BAZ")])) ∧
    Inject specSubstitutors (str "echo $$FOO $BAR") (some [(str "FOO", str "BAZ")])
      = substituteBare (str "echo $$FOO $BAR") (str "FOO") (str "BAZ") :=
  ⟨by decide,
    Inject_single_bare (str "FOO") (str "BAZ") (str "echo $$FOO $BAR")
      (by decide) (by decide) (by decide)⟩

/-! ## The claims at concrete inputs -/

/-- C4 on the keys `TAG` and `TAG_SHORT`. -/
theorem Inject_descending_order_witness :
    DescendingKeys (some [(str "TAG", str "v1.0.0"), (str "TAG_SHORT", str "v1")])
        [str "TAG_SHORT", str "TAG"] ∧
      Inject specSubstitutors (str "$$TAG_SHORT $$TAG")
          (some [(str "TAG", str "v1.0.0"), (str "TAG_SHORT", str "v1")])
        = applyKeys specSubstitutors
            (some [(str "TAG", str "v1.0.0"), (str "TAG_SHORT", str "v1")])
            [str "TAG_SHORT", str "TAG"] (str "$$TAG_SHORT $$TAG") :=
  ⟨⟨List.Perm.swap _ _ _, by decide⟩,
    Inject_descending_order specSubstitutors (str "$$TAG_SHORT $$TAG")
      (some [(str "TAG", str "v1.0.0"), (str "TAG_SHORT", str "v1")])
      [str "TAG_SHORT", str "TAG"] (by decide) ⟨List.Perm.swap _ _ _, by decide⟩⟩

/-- C5 on the keys `TAG` and `TAG_SHORT`. -/
theorem Inject_longer_key_first_witness :
    ∃ l1 l2 l3 : List GoString,
      sortReverse (collectKeys (some [(str "TAG", str "v1.0.0"), (str "TAG_SHORT", str "v1")]))
        = l1 ++ str "TAG_SHORT" :: (l2 ++ str "TAG" :: l3) ∧
      str "TAG" ∉ l1 ∧ str "TAG" ∉ l2 ∧
      ∀ text : GoString,
        Inject specSubstitutors text
            (some [(str "TAG", str "v1.0.0"), (str "TAG_SHORT", str "v1")]) =
          applyKeys specSubstitutors
            (some [(str "TAG", str "v1.0.0"), (str "TAG_SHORT", str "v1")]) l3
            (applySubstitutors specSubstitutors
              (applyKeys specSubstitutors
                (some [(str "TAG", str "v1.0.0"), (str "TAG_SHORT", str "v1")]) l2
                (applySubstitutors specSubstitutors
                  (applyKeys specSubstitutors
                    (some [(str "TAG", str "v1.0.0"), (str "TAG_SHORT", str "v1")]) l1 text)
                  (str "TAG_SHORT")
                  (Params.index (some [(str "TAG", str "v1.0.0"), (str "TAG_SHORT", str "v1")])
                    (str "TAG_SHORT"))))
              (str "TAG")
              (Params.index (some [(str "TAG", str "v1.0.0"), (str "TAG_SHORT", str "v1")])
                (str "TAG"))) :=
  Inject_longer_key_first specSubstitutors
    (some [(str "TAG", str "v1.0.0"), (str "TAG_SHORT", str "v1")]) (str "TAG")
    (str "TAG_SHORT") (by unfold Params.WF; decide) (by decide) (by decide) (by decide)
    (by decide)

/-- C10 on the two enumerations of a map with the keys `TAG` and `TAG_SHORT`. -/
theorem Inject_enumeration_independent_witness :
    Inject specSubstitutors (str "$$TAG_SHORT $$TAG")
        (some [(str "TAG", str "v1.0.0"), (str "TAG_SHORT", str "v1")])
      = Inject specSubstitutors (str "$$TAG_SHORT $$TAG")
        (some [(str "TAG_SHORT", str "v1"), (str "TAG", str "v1.0.0")]) :=
  Inject_enumeration_independent specSubstitutors (str "$$TAG_SHORT $$TAG")
    [(str "TAG", str "v1.0.0"), (str "TAG_SHORT", str "v1")]
    [(str "TAG_SHORT", str "v1"), (str "TAG", str "v1.0.0")] (List.Perm.swap _ _ _)
    (by decide)

/-! ## Further claims about `InjectSafe` -/

/-- C11: when both parses succeed and the substituted document has no build-keyed entry,
`InjectSafe` replaces nothing: the slice it marshals is the parse of the substituted text,
whatever the original document holds. -/
theorem InjectSafe_no_build_after {ι ε : Type} (x : Extern ι ε) (subs : List Substitutor)
    (raw : GoString) (params : Params) (before after : MapSlice ι)
    (hne : params.isEmpty = false) (hb : parse x raw = (before, none))
    (ha : parse x (Inject subs raw params) = (after, none))
    (hno : ∀ e ∈ after, isBuild x e = false) :
    marshalled x subs raw params = some after ∧
      InjectSafe x subs raw params = x.Marshal after := by
  obtain ⟨hI, hM⟩ := InjectSafe_of_parsed x subs raw params before after hne hb ha
  rw [bindBuild_no_build_after x before after hno] at hI hM
  exact ⟨hM, hI⟩

/-- C11 on a document whose original parse holds a build-keyed entry and whose substituted
parse holds none: the default form spans the line break in front of `build`. -/
theorem InjectSafe_no_build_after_witness :
    (∃ e ∈ (parse flatYaml (str "a: $$\x7bT=\nbuild: x\x7d\n")).1, isBuild flatYaml e = true) ∧
    marshalled flatYaml specSubstitutors (str "a: $$\x7bT=\nbuild: x\x7d\n")
        (some [(str "T", str "v")]) = some [⟨str "a", str "v"⟩] ∧
    InjectSafe flatYaml specSubstitutors (str "a: $$\x7bT=\nbuild: x\x7d\n")
        (some [(str "T", str "v")]) = flatYaml.Marshal [⟨str "a", str "v"⟩] :=
  ⟨⟨⟨str "build", str "x\x7d"⟩, by decide, by decide⟩,
    InjectSafe_no_build_after flatYaml specSubstitutors (str "a: $$\x7bT=\nbuild: x\x7d\n")
      (some [(str "T", str "v")])
      [⟨str "a", str "$$\x7bT="⟩, ⟨str "build", str "x\x7d"⟩] [⟨str "a", str "v"⟩]
      (by decide) (by decide) (by decide) (by decide)⟩

/-- C12: for the nil map and for the empty map `InjectSafe` returns the text and no error, for
every text and every library: nothing is parsed and nothing is marshalled. -/
theorem InjectSafe_nil_or_empty {ι ε : Type} (x : Extern ι ε) (subs : List Substitutor)
    (text : GoString) :
    InjectSafe x subs text none = (text, none) ∧
    InjectSafe x subs text (some []) = (text, none) ∧
    marshalled x subs text none = none ∧
    marshalled x subs text (some []) = none :=
  ⟨rfl, rfl, rfl, rfl⟩

/-- C13: for a non-empty map and a library whose `Marshal` reports no error on the slice that
`InjectSafe` hands to it (`yaml.Marshal` reports none on a slice whose entries
`yaml.Unmarshal` produced): an error that `InjectSafe` returns is the error of the parse of
the original text, or that parse succeeded and it is the error of the parse of the
substituted text; and when both parses succeed, `InjectSafe` returns no error. -/
theorem InjectSafe_error_only_from_parse {ι ε : Type} (x : Extern ι ε)
    (subs : List Substitutor) (raw : GoString) (params : Params)
    (hne : params.isEmpty = false)
    (hM : ∀ doc, marshalled x subs raw params = some doc → (x.Marshal doc).2 = none) :
    (∀ err, (InjectSafe x subs raw params).2 = some err →
      (parse x raw).2 = some err ∨
      ((parse x raw).2 = none ∧ (parse x (Inject subs raw params)).2 = some err)) ∧
    ((parse x raw).2 = none → (parse x (Inject subs raw params)).2 = none →
      (InjectSafe x subs raw params).2 = none) := by
  rcases hp : parse x raw with ⟨before, e1⟩
  cases e1 with
  | some e =>
    have hI : InjectSafe x subs raw params = (raw, some e) := by
      unfold InjectSafe
      simp only [hne, Bool.false_eq_true, if_false, hp]
    rw [hI]
    exact ⟨fun err herr => Or.inl herr, fun h => absurd h (by simp)⟩
  | none =>
    rcases hq : parse x (Inject subs raw params) with ⟨after, e2⟩
    cases e2 with
    | some e =>
      have hI : InjectSafe x subs raw params = (raw, some e) := by
        unfold InjectSafe
        simp only [hne, Bool.false_eq_true, if_false, hp, hq]
      rw [hI]
      exact ⟨fun err herr => Or.inr ⟨rfl, herr⟩, fun _ h => absurd h (by simp)⟩
    | none =>
      obtain ⟨hI, hdoc⟩ := InjectSafe_of_parsed x subs raw params before after hne hp hq
      have hnone := hM _ hdoc
      rw [hI, hnone]
      exact ⟨fun err herr => absurd herr (by simp), fun _ _ => rfl⟩

/-- C13 on the stand-in library, whose `Marshal` reports no error: on a text that does not
parse the error of `InjectSafe` is that of the parse, and on a document that parses before and
after substitution `InjectSafe` returns no error. -/
theorem InjectSafe_error_only_from_parse_witness :
    ((InjectSafe flatYaml specSubstitutors (str "deploy $$TOKEN\n")
        (some [(str "TOKEN", str "FOO")])).2 = some YamlError.cannotUnmarshal ∧
      (parse flatYaml (str "deploy $$TOKEN\n")).2 = some YamlError.cannotUnmarshal) ∧
    ((parse flatYaml (str "build: echo $$TOKEN\ndeploy: $$TOKEN\n")).2 = none ∧
      (parse flatYaml (Inject specSubstitutors (str "build: echo $$TOKEN\ndeploy: $$TOKEN\n")
        (some [(str "TOKEN", str "FOO")]))).2 = none ∧
      (InjectSafe flatYaml specSubstitutors (str "build: echo $$TOKEN\ndeploy: $$TOKEN\n")
        (some [(str "TOKEN", str "FOO")])).2 = none) :=
  ⟨⟨by decide,
    ((InjectSafe_error_only_from_parse flatYaml specSubstitutors (str "deploy $$TOKEN\n")
      (some [(str "TOKEN", str "FOO")]) (by decide) (fun _ _ => rfl)).1
        YamlError.cannotUnmarshal (by decide)).elim id (fun h => absurd h.1 (by decide))⟩,
    by decide, by decide,
    (InjectSafe_error_only_from_parse flatYaml specSubstitutors
      (str "build: echo $$TOKEN\ndeploy: $$TOKEN\n") (some [(str "TOKEN", str "FOO")])
      (by decide) (fun _ _ => rfl)).2 (by decide) (by decide)⟩

/-- C18: the claim asks that a document that substitution leaves unchanged is marshalled as
parsed. Here the text holds no `$$` and two build-keyed entries: the inner loop of
inject.go:62-67 has no `break`, it stores the last build-keyed entry at the position of the
first, and the slice that is marshalled is not the parse of the text. -/
theorem InjectSafe_unchanged_text_rewritten :
    Inject specSubstitutors (str "build: make\nbuild: rm\n") (some [(str "T", str "s")])
      = str "build: make\nbuild: rm\n" ∧
    parse flatYaml (str "build: make\nbuild: rm\n")
      = ([⟨str "build", str "make"⟩, ⟨str "build", str "rm"⟩], none) ∧
    marshalled flatYaml specSubstitutors (str "build: make\nbuild: rm\n")
        (some [(str "T", str "s")])
      = some [⟨str "build", str "rm"⟩, ⟨str "build", str "rm"⟩] ∧
    InjectSafe flatYaml specSubstitutors (str "build: make\nbuild: rm\n")
        (some [(str "T", str "s")])
      = (str "build: rm\nbuild: rm\n", none) := by
  decide

/-! ## Claims about the operators -/

/-- C14, as amended: for a map with the single key `NAME`, a key without `"`, bound to `V`, and
a text in which `"$$NAME"` stands where the text in front of it and the value between its
quotes hold no reference to `NAME` (no `$$NAME` and no `$${NAME` begins there): `Inject` over
the substitutors of the specification puts `V` between the quotes with each newline of `V` as
the two bytes backslash, `n`, so that the value brings no line break into the output; it keeps
the text in front of the occurrence and treats the text behind it as it treats that text on
its own, every further occurrence included. -/
theorem Inject_quoted_form (NAME V pre post : GoString) (hN : 34 ∉ NAME)
    (href : NoReference NAME (pre ++ (str "\"" ++ escapeNewlines V ++ str "\""))) :
    Inject specSubstitutors (pre ++ quoted NAME ++ post) (some [(NAME, V)])
      = pre ++ (str "\"" ++ escapeNewlines V ++ str "\"")
          ++ Inject specSubstitutors post (some [(NAME, V)]) ∧
    10 ∉ escapeNewlines V := by
  refine ⟨?_, not_mem_escapeNewlines V⟩
  rw [Inject_single, Inject_single]
  exact own_pass_quoted NAME V pre post hN href

/-- The amended C14 on a text with a single `$` and two quoted occurrences, the value that of
the test "Should escape quoted variables": the theorem at the first occurrence, and again at
the second one. -/
theorem Inject_quoted_form_witness :
    (34 ∉ str "FOO" ∧
      NoReference (str "FOO")
        (str "echo $HOME " ++ (str "\"" ++ escapeNewlines (str "hello\nworld") ++ str "\""))) ∧
    (Inject specSubstitutors (str "echo $HOME " ++ quoted (str "FOO") ++ str " and \"$$FOO\"")
        (some [(str "FOO", str "hello\nworld")])
      = str "echo $HOME " ++ (str "\"" ++ escapeNewlines (str "hello\nworld") ++ str "\"")
          ++ Inject specSubstitutors (str " and \"$$FOO\"")
              (some [(str "FOO", str "hello\nworld")]) ∧
      10 ∉ escapeNewlines (str "hello\nworld")) ∧
    Inject specSubstitutors (str " and " ++ quoted (str "FOO") ++ str "")
        (some [(str "FOO", str "hello\nworld")])
      = str " and \"hello\\nworld\"" :=
  ⟨by decide,
    Inject_quoted_form (str "FOO") (str "hello\nworld") (str "echo $HOME ")
      (str " and \"$$FOO\"") (by decide) (by decide),
    (Inject_quoted_form (str "FOO") (str "hello\nworld") (str " and ") (str "")
      (by decide) (by decide)).1.trans (by decide)⟩

/-- C14, as stated, fails. With `A` bound to `$$A` and a newline, the quoted pass writes the
escaped value between the quotes of `"$$A"`, and the bare pass of the same key, which follows,
replaces the `$$A` in it by the value as it is: the output holds a line break. With the key
`A"$$A`, the text `"$$A"$$A"$$A"` holds two quoted occurrences that overlap, and the one that
begins behind `"$$A` is not rewritten. With `A` bound to `a`, a newline and `b`, the text
`"$$A"$$A"` holds two quoted occurrences that overlap; the quoted pass rewrites the first one,
and the bare pass puts the value as it is between the quotes of the second one: the output
holds a line break. -/
theorem Inject_quoted_form_counterexample :
    (Inject specSubstitutors (quoted (str "A")) (some [(str "A", str "$$A\n")])
        = str "\"$$A\n\\n\"" ∧
      Inject specSubstitutors (quoted (str "A")) (some [(str "A", str "$$A\n")])
        ≠ str "\"" ++ escapeNewlines (str "$$A\n") ++ str "\"" ∧
      10 ∈ Inject specSubstitutors (quoted (str "A")) (some [(str "A", str "$$A\n")])) ∧
    (Inject specSubstitutors (str "\"$$A" ++ quoted (str "A\"$$A") ++ str "")
        (some [(str "A\"$$A", str "v")]) = str "\"v\"$$A\"" ∧
      Inject specSubstitutors (str "\"$$A" ++ quoted (str "A\"$$A") ++ str "")
          (some [(str "A\"$$A", str "v")])
        ≠ str "\"$$A" ++ (str "\"" ++ escapeNewlines (str "v") ++ str "\"") ++ str "") ∧
    (Inject specSubstitutors (str "\"$$A" ++ quoted (str "A") ++ str "")
        (some [(str "A", str "a\nb")]) = str "\"a\\nb\"a\nb\"" ∧
      str "\"$$A" ++ quoted (str "A") ++ str "" = str "\"$$A\"$$A\"" ∧
      10 ∈ Inject specSubstitutors (str "\"$$A" ++ quoted (str "A") ++ str "")
        (some [(str "A", str "a\nb")])) := by
  decide

/-- C15, as amended: for a map with `NAME`, a name, bound to `V`, and `$${NAME=DEFAULT}` with
balanced braces in `DEFAULT`, standing between `pre` and `post`.

When `V` is not empty and `DEFAULT` holds no reference to `NAME`, `Inject` over the
substitutors of the specification puts `V` in place of the occurrence and keeps `pre`:
(1) for the text `pre`, occurrence, `post`, when all keys are names, `DEFAULT` holds no
reference to a key that sorts before `NAME`, and `pre` followed by `V` is settled for all keys
(it holds no reference to a key, complete or begun at its end, and where it ends in `"`, `post`
does not begin with `$`): the output is `pre`, `V`, and the output for `post`;
(2) for every text that is `pre`, occurrence, `post` when the turn of `NAME` comes, when `pre`
followed by `V` holds no reference to `NAME`: the output is what the passes of the keys behind
`NAME` make of `pre`, `V`, and what the passes of `NAME` make of `post`; and when `pre`
followed by `V` is also settled for the keys behind `NAME`, the output is `pre`, `V`, and what
the passes of `NAME` and of the keys behind it make of `post`.

When `V` is empty, `Inject` puts `DEFAULT` in place of the occurrence and resolves the notation
nested in it with the rest of the text:
(3) for the text `pre`, occurrence, `post`, when all keys are names and `pre` followed by
`DEFAULT` is settled for `NAME` and the keys that sort before it: the output is the output for
the text with `DEFAULT` in place of the occurrence;
(4) for every text that is `pre`, occurrence, `post` when the turn of `NAME` comes, when `pre`
followed by `DEFAULT` is settled for `NAME`: the output is what the passes of `NAME` and of the
keys behind it make of the text with `DEFAULT` in place of the occurrence. -/
theorem Inject_default_form (params : Params) (NAME V DEFAULT pre post : GoString)
    (hwf : params.WF) (hN : IsName NAME) (hmem : (NAME, V) ∈ params.entries)
    (hbal : Balanced DEFAULT) :
    (V ≠ [] → Unreferenced NAME DEFAULT →
      ((∀ k ∈ params.entries.map Prod.fst, IsName k) →
        (∀ k ∈ params.entries.map Prod.fst, strLess k NAME = false →
          Unreferenced k DEFAULT) →
        Settled (params.entries.map Prod.fst) (pre ++ V) post →
        Inject specSubstitutors (pre ++ braced NAME (str "=") DEFAULT ++ post) params
          = pre ++ V ++ Inject specSubstitutors post params) ∧
      (∀ text, textAtTurn specSubstitutors params NAME text
            = pre ++ braced NAME (str "=") DEFAULT ++ post →
        NoReference NAME (pre ++ V) →
        Inject specSubstitutors text params
          = applyKeys specSubstitutors params (keysBehind params NAME)
              (pre ++ V ++ applySubstitutors specSubstitutors post NAME V) ∧
        (Settled (keysBehind params NAME) (pre ++ V) post →
          Inject specSubstitutors text params
            = pre ++ V ++ passesFrom specSubstitutors params NAME post))) ∧
    (V = [] →
      ((∀ k ∈ params.entries.map Prod.fst, IsName k) →
        Settled ((params.entries.map Prod.fst).filter (fun k => strLess k NAME = false))
          (pre ++ DEFAULT) post →
        Inject specSubstitutors (pre ++ braced NAME (str "=") DEFAULT ++ post) params
          = Inject specSubstitutors (pre ++ DEFAULT ++ post) params) ∧
      (∀ text, textAtTurn specSubstitutors params NAME text
            = pre ++ braced NAME (str "=") DEFAULT ++ post →
        Settled [NAME] (pre ++ DEFAULT) post →
        Inject specSubstitutors text params
          = passesFrom specSubstitutors params NAME (pre ++ DEFAULT ++ post))) := by
  have hkey : NAME ∈ params.entries.map Prod.fst := List.mem_map_of_mem Prod.fst hmem
  constructor
  · intro hV hDN
    constructor
    · intro hnames hD hS
      exact Inject_at_occurrence params NAME V pre (str "=") DEFAULT post V hwf hnames hmem
        (by decide) hD hS
        (fun B => own_pass_default NAME V DEFAULT pre B hN hV hbal hDN (hS.1 NAME hkey))
    · intro text hturn href
      have hown := own_pass_default NAME V DEFAULT pre post hN hV hbal hDN href
      exact ⟨Inject_after_turn params NAME V pre _ post V text hwf hmem hturn hown,
        fun hS => Inject_at_turn params NAME V pre _ post V text hwf hmem hturn
          (settled_with_key NAME _ _ _ href hS) hown⟩
  · intro hV
    subst hV
    constructor
    · intro hnames hS
      exact Inject_default_empty params NAME pre DEFAULT post hwf hnames hmem hbal hS
    · intro text hturn hS
      exact Inject_default_empty_at_turn params NAME pre DEFAULT post text hwf hN hmem hbal
        hturn hS

/-- The amended C15 on the text of the test "Should replace variable prefix", where `TAG` is
empty and the default `$${SHA:8}` is resolved (parts 3 and 4); on a text with a single `$` and
two occurrences, `TAG` bound to `v1` (part 1); on a text in which the pass of `Z` has run when
the turn of `TAG` comes, and on one in which the pass of `FOO` follows that of `TAG`
(part 2). -/
theorem Inject_default_form_witness :
    ((Inject specSubstitutors
          (str "tag: " ++ braced (str "TAG") (str "=")
            (braced (str "SHA") (str ":") (decimal 8)) ++ str "")
          (some [(str "TAG", str ""),
            (str "SHA", str "f36cbf54ee1a1eeab264c8e388f386218ab1701b")])
        = Inject specSubstitutors
          (str "tag: " ++ braced (str "SHA") (str ":") (decimal 8) ++ str "")
          (some [(str "TAG", str ""),
            (str "SHA", str "f36cbf54ee1a1eeab264c8e388f386218ab1701b")])
      ∧ Inject specSubstitutors
          (str "tag: " ++ braced (str "SHA") (str ":") (decimal 8) ++ str "")
          (some [(str "TAG", str ""),
            (str "SHA", str "f36cbf54ee1a1eeab264c8e388f386218ab1701b")])
        = str "tag: f36cbf54") ∧
      Inject specSubstitutors (str "tag: $$\x7bTAG=$$\x7bSHA:8\x7d\x7d")
          (some [(str "TAG", str ""),
            (str "SHA", str "f36cbf54ee1a1eeab264c8e388f386218ab1701b")])
        = passesFrom specSubstitutors
          (some [(str "TAG", str ""),
            (str "SHA", str "f36cbf54ee1a1eeab264c8e388f386218ab1701b")])
          (str "TAG")
          (str "tag: " ++ braced (str "SHA") (str ":") (decimal 8) ++ str "")) ∧
    ((Inject specSubstitutors
          (str "$FOO " ++ braced (str "TAG") (str "=") (str "none")
            ++ str " $$\x7bTAG=x\x7d $BAR")
          (some [(str "TAG", str "v1")])
        = str "$FOO " ++ str "v1"
            ++ Inject specSubstitutors (str " $$\x7bTAG=x\x7d $BAR")
              (some [(str "TAG", str "v1")])
      ∧ Inject specSubstitutors (str " $$\x7bTAG=x\x7d $BAR") (some [(str "TAG", str "v1")])
        = str " v1 $BAR") ∧
      Inject specSubstitutors (str "$$Z $$\x7bTAG=none\x7d")
          (some [(str "TAG", str "v1"), (str "Z", str "z")])
        = str "z " ++ str "v1"
            ++ passesFrom specSubstitutors (some [(str "TAG", str "v1"), (str "Z", str "z")])
              (str "TAG") (str "") ∧
      (Inject specSubstitutors (str "$$FOO $$\x7bTAG=none\x7d")
          (some [(str "TAG", str "v1"), (str "FOO", str "f")])
        = applyKeys specSubstitutors (some [(str "TAG", str "v1"), (str "FOO", str "f")])
            (keysBehind (some [(str "TAG", str "v1"), (str "FOO", str "f")]) (str "TAG"))
            (str "$$FOO " ++ str "v1"
              ++ applySubstitutors specSubstitutors (str "") (str "TAG") (str "v1"))
      ∧ applyKeys specSubstitutors (some [(str "TAG", str "v1"), (str "FOO", str "f")])
            (keysBehind (some [(str "TAG", str "v1"), (str "FOO", str "f")]) (str "TAG"))
            (str "$$FOO " ++ str "v1"
              ++ applySubstitutors specSubstitutors (str "") (str "TAG") (str "v1"))
        = str "f v1")) :=
  ⟨⟨⟨((Inject_default_form
        (some [(str "TAG", str ""),
          (str "SHA", str "f36cbf54ee1a1eeab264c8e388f386218ab1701b")])
        (str "TAG") (str "") (braced (str "SHA") (str ":") (decimal 8)) (str "tag: ") (str "")
        (by decide) (by decide) (by decide) (by decide)).2 rfl).1 (by decide) (by decide),
      by decide⟩,
    ((Inject_default_form
        (some [(str "TAG", str ""),
          (str "SHA", str "f36cbf54ee1a1eeab264c8e388f386218ab1701b")])
        (str "TAG") (str "") (braced (str "SHA") (str ":") (decimal 8)) (str "tag: ") (str "")
        (by decide) (by decide) (by decide) (by decide)).2 rfl).2
      (str "tag: $$\x7bTAG=$$\x7bSHA:8\x7d\x7d") (by decide) (by decide)⟩,
    ⟨((Inject_default_form (some [(str "TAG", str "v1")]) (str "TAG") (str "v1") (str "none")
        (str "$FOO ") (str " $$\x7bTAG=x\x7d $BAR") (by decide) (by decide) (by decide)
        (by decide)).1 (by decide) (by decide)).1 (by decide) (by decide) (by decide),
      by decide⟩,
    ((((Inject_default_form (some [(str "TAG", str "v1"), (str "Z", str "z")]) (str "TAG")
        (str "v1") (str "none") (str "z ") (str "") (by decide) (by decide) (by decide)
        (by decide)).1 (by decide) (by decide)).2 (str "$$Z $$\x7bTAG=none\x7d") (by decide)
      (by decide)).2 (by decide)),
    ((((Inject_default_form (some [(str "TAG", str "v1"), (str "FOO", str "f")]) (str "TAG")
        (str "v1") (str "none") (str "$$FOO ") (str "") (by decide) (by decide) (by decide)
        (by decide)).1 (by decide) (by decide)).2 (str "$$FOO $$\x7bTAG=none\x7d") (by decide)
      (by decide)).1),
    by decide⟩

/-- C15, as stated, fails. With `B` bound to `$$A` and `A` bound to `x`, the occurrence
`$${B=d}` is rewritten to the value of `B` and the passes of `A`, which follow, rewrite that
value: the output is `x`. With `A` bound to the empty string, the default of `$${A=$${A=x}}` is
put in place and the default form nested in it stays as it is. With `Z` bound to `}`, the pass
of `Z` comes first and closes the braces of `$${A=$$Z}` early: the output is the value of `A`
and a `}`. With the key `{A=d}` in the map, its bare form is the text `$${A=d}`, and its pass
comes first. With `A` bound to `A`, the `$$` in front of the occurrence and the value form
`$$A`, which the bare pass rewrites. With `A` bound to `}`, the quoted pass comes first and
writes the value into the default of `$${A="$$A"}`, which closes the braces early. With the
key `=d}"$$`, the end of the occurrence and the text `"$$"` behind it form the quoted form of
that key, and the quoted pass comes first. -/
theorem Inject_default_form_counterexample :
    (Inject specSubstitutors (braced (str "B") (str "=") (str "d"))
        (some [(str "A", str "x"), (str "B", str "$$A")]) = str "x" ∧
      str "x" ≠ str "$$A") ∧
    (Inject specSubstitutors (braced (str "A") (str "=") (braced (str "A") (str "=") (str "x")))
        (some [(str "A", str "")]) = braced (str "A") (str "=") (str "x") ∧
      Inject specSubstitutors (braced (str "A") (str "=") (str "x")) (some [(str "A", str "")])
        = str "x") ∧
    (Inject specSubstitutors (braced (str "A") (str "=") (str "$$Z"))
        (some [(str "A", str "v"), (str "Z", str "\x7d")]) = str "v\x7d" ∧
      str "v\x7d" ≠ str "v") ∧
    (Inject specSubstitutors (braced (str "A") (str "=") (str "d"))
        (some [(str "A", str "v"), (str "\x7bA=d\x7d", str "y")]) = str "y" ∧
      str "y" ≠ str "v") ∧
    (Inject specSubstitutors (str "$$" ++ braced (str "A") (str "=") (str "d") ++ str "")
        (some [(str "A", str "A")]) = str "A" ∧
      str "A" ≠ str "$$" ++ str "A" ++ str "") ∧
    (Inject specSubstitutors (braced (str "A") (str "=") (str "\"$$A\""))
        (some [(str "A", str "\x7d")]) = str "\x7d\"\x7d" ∧
      str "\x7d\"\x7d" ≠ str "\x7d") ∧
    (Inject specSubstitutors (braced (str "=d\x7d\"$$") (str "=") (str "d") ++ str "\"$$\"")
        (some [(str "=d\x7d\"$$", str "v")]) = str "$$\x7b=d\x7d\"v\"" ∧
      Inject specSubstitutors (str "\"$$\"") (some [(str "=d\x7d\"$$", str "v")])
        = str "\"$$\"" ∧
      str "$$\x7b=d\x7d\"v\"" ≠ str "v" ++ str "\"$$\"") := by
  decide

/-- C16, as amended: for a map with `NAME`, a name, bound to `V`, every natural number `N`,
and `$${NAME:N}` standing between `pre` and `post`, `Inject` over the substitutors of the
specification puts the first `N` characters of `V` in place of the occurrence, the whole of
`V` when `V` has at most `N` characters, and keeps `pre`:
(1) for the text `pre`, occurrence, `post`, when all keys are names and `pre` followed by the
first `N` characters of `V` is settled for all keys (it holds no reference to a key, complete
or begun at its end, and where it ends in `"`, `post` does not begin with `$`): the output is
`pre`, the first `N` characters of `V`, and the output for `post`;
(2) for every text that is `pre`, occurrence, `post` when the turn of `NAME` comes, when `pre`
followed by the first `N` characters of `V` holds no reference to `NAME`: the output is what
the passes of the keys behind `NAME` make of `pre`, the first `N` characters of `V`, and what
the passes of `NAME` make of `post`; and when `pre` followed by the first `N` characters of `V`
is also settled for the keys behind `NAME`, the output is `pre`, the first `N` characters of
`V`, and what the passes of `NAME` and of the keys behind it make of `post`. -/
theorem Inject_substring_form (params : Params) (NAME V pre post : GoString) (N : Nat)
    (hwf : params.WF) (hN : IsName NAME) (hmem : (NAME, V) ∈ params.entries) :
    ((∀ k ∈ params.entries.map Prod.fst, IsName k) →
      Settled (params.entries.map Prod.fst) (pre ++ takeChars N V) post →
      Inject specSubstitutors (pre ++ braced NAME (str ":") (decimal N) ++ post) params
        = pre ++ takeChars N V ++ Inject specSubstitutors post params) ∧
    (∀ text, textAtTurn specSubstitutors params NAME text
          = pre ++ braced NAME (str ":") (decimal N) ++ post →
      NoReference NAME (pre ++ takeChars N V) →
      Inject specSubstitutors text params
        = applyKeys specSubstitutors params (keysBehind params NAME)
            (pre ++ takeChars N V ++ applySubstitutors specSubstitutors post NAME V) ∧
      (Settled (keysBehind params NAME) (pre ++ takeChars N V) post →
        Inject specSubstitutors text params
          = pre ++ takeChars N V ++ passesFrom specSubstitutors params NAME post)) ∧
    takeChars N V <+: V ∧
    (charLength V ≤ N → takeChars N V = V) := by
  have hkey : NAME ∈ params.entries.map Prod.fst := List.mem_map_of_mem Prod.fst hmem
  refine ⟨?_, ?_, takeChars_head N V, takeChars_of_charLength_le V N⟩
  · intro hnames hS
    exact Inject_at_occurrence params NAME V pre (str ":") (decimal N) post (takeChars N V)
      hwf hnames hmem (by decide)
      (fun k _ _ => unreferenced_of_no_dollar k _ (no_dollar_decimal N)) hS
      (fun B => own_pass_substr NAME V pre B N hN (hS.1 NAME hkey))
  · intro text hturn href
    have hown := own_pass_substr NAME V pre post N hN href
    exact ⟨Inject_after_turn params NAME V pre _ post (takeChars N V) text hwf hmem hturn hown,
      fun hS => Inject_at_turn params NAME V pre _ post (takeChars N V) text hwf hmem hturn
        (settled_with_key NAME _ _ _ href hS) hown⟩

/-- The amended C16 on a text with a single `$` and two occurrences, the commit hash that of
the test "Should replace variable prefix" (part 1, at the first occurrence); on the text of
that test, where the occurrence stands in the default of `TAG` until the pass of `TAG` has put
it in place, and on a text in which the pass of `REPO` follows that of `SHA` (part 2); on a
length beyond that of the value; and on a value of three characters in five bytes. -/
theorem Inject_substring_form_witness :
    (Inject specSubstitutors
        (str "$X " ++ braced (str "SHA") (str ":") (decimal 8) ++ str "-$$\x7bSHA:4\x7d")
        (some [(str "TAG", str ""), (str "SHA", str "f36cbf54ee1a1eeab264c8e388f386218ab1701b")])
      = str "$X " ++ takeChars 8 (str "f36cbf54ee1a1eeab264c8e388f386218ab1701b")
          ++ Inject specSubstitutors (str "-$$\x7bSHA:4\x7d")
            (some [(str "TAG", str ""),
              (str "SHA", str "f36cbf54ee1a1eeab264c8e388f386218ab1701b")])
    ∧ takeChars 8 (str "f36cbf54ee1a1eeab264c8e388f386218ab1701b") = str "f36cbf54"
    ∧ Inject specSubstitutors (str "-$$\x7bSHA:4\x7d")
        (some [(str "TAG", str ""), (str "SHA", str "f36cbf54ee1a1eeab264c8e388f386218ab1701b")])
      = str "-f36c") ∧
    (Inject specSubstitutors (str "tag: $$\x7bTAG=$$\x7bSHA:8\x7d\x7d")
        (some [(str "TAG", str ""), (str "SHA", str "f36cbf54ee1a1eeab264c8e388f386218ab1701b")])
      = str "tag: " ++ takeChars 8 (str "f36cbf54ee1a1eeab264c8e388f386218ab1701b")
          ++ passesFrom specSubstitutors
            (some [(str "TAG", str ""),
              (str "SHA", str "f36cbf54ee1a1eeab264c8e388f386218ab1701b")])
            (str "SHA") (str "")
    ∧ passesFrom specSubstitutors
        (some [(str "TAG", str ""), (str "SHA", str "f36cbf54ee1a1eeab264c8e388f386218ab1701b")])
        (str "SHA") (str "") = str "") ∧
    (Inject specSubstitutors (str "$$REPO $$\x7bSHA:8\x7d")
        (some [(str "SHA", str "f36cbf54ee1a"), (str "REPO", str "r")])
      = applyKeys specSubstitutors (some [(str "SHA", str "f36cbf54ee1a"), (str "REPO", str "r")])
          (keysBehind (some [(str "SHA", str "f36cbf54ee1a"), (str "REPO", str "r")]) (str "SHA"))
          (str "$$REPO " ++ takeChars 8 (str "f36cbf54ee1a")
            ++ applySubstitutors specSubstitutors (str "") (str "SHA") (str "f36cbf54ee1a"))
    ∧ applyKeys specSubstitutors (some [(str "SHA", str "f36cbf54ee1a"), (str "REPO", str "r")])
          (keysBehind (some [(str "SHA", str "f36cbf54ee1a"), (str "REPO", str "r")]) (str "SHA"))
          (str "$$REPO " ++ takeChars 8 (str "f36cbf54ee1a")
            ++ applySubstitutors specSubstitutors (str "") (str "SHA") (str "f36cbf54ee1a"))
      = str "r f36cbf54") ∧
    (charLength (str "f36cbf54") ≤ 12 ∧ takeChars 12 (str "f36cbf54") = str "f36cbf54") ∧
    (Inject specSubstitutors (str "" ++ braced (str "V") (str ":") (decimal 1) ++ str "")
        (some [(str "V", [195, 169, 116, 195, 169])])
      = str "" ++ takeChars 1 [195, 169, 116, 195, 169]
          ++ Inject specSubstitutors (str "") (some [(str "V", [195, 169, 116, 195, 169])])
    ∧ takeChars 1 [195, 169, 116, 195, 169] = [195, 169]) :=
  ⟨⟨(Inject_substring_form
      (some [(str "TAG", str ""), (str "SHA", str "f36cbf54ee1a1eeab264c8e388f386218ab1701b")])
      (str "SHA") (str "f36cbf54ee1a1eeab264c8e388f386218ab1701b") (str "$X ")
      (str "-$$\x7bSHA:4\x7d") 8 (by decide) (by decide) (by decide)).1 (by decide)
      (by decide),
    by decide, by decide⟩,
    ⟨((Inject_substring_form
      (some [(str "TAG", str ""), (str "SHA", str "f36cbf54ee1a1eeab264c8e388f386218ab1701b")])
      (str "SHA") (str "f36cbf54ee1a1eeab264c8e388f386218ab1701b") (str "tag: ") (str "") 8
      (by decide) (by decide) (by decide)).2.1 (str "tag: $$\x7bTAG=$$\x7bSHA:8\x7d\x7d")
      (by decide) (by decide)).2 (by decide),
    by decide⟩,
    ⟨((Inject_substring_form (some [(str "SHA", str "f36cbf54ee1a"), (str "REPO", str "r")])
      (str "SHA") (str "f36cbf54ee1a") (str "$$REPO ") (str "") 8 (by decide) (by decide)
      (by decide)).2.1 (str "$$REPO $$\x7bSHA:8\x7d") (by decide) (by decide)).1,
    by decide⟩,
    ⟨by decide,
    (Inject_substring_form (some [(str "SHA", str "f36cbf54")]) (str "SHA") (str "f36cbf54")
      (str "tag: ") (str "") 12 (by decide) (by decide) (by decide)).2.2.2 (by decide)⟩,
    (Inject_substring_form (some [(str "V", [195, 169, 116, 195, 169])]) (str "V")
      [195, 169, 116, 195, 169] (str "") (str "") 1 (by decide) (by decide) (by decide)).1
      (by decide) (by decide),
    by decide⟩

/-- C16, as stated, fails. With `B` bound to `$$A` and `A` bound to `x`, the occurrence
`$${B:9}` is rewritten to the whole value of `B`, which has fewer than 9 characters, and the
passes of `A`, which follow, rewrite that value: the output is `x`. With the key `{A:1}` in the
map, its bare form is the text `$${A:1}`, and its pass comes first. With `A` bound to `A`, the
`$$` in front of the occurrence and the value form `$$A`, which the bare pass rewrites. With
`A` bound to `v`, the occurrence `$${B:1}` in the default of `$${A=...}` goes with the
default. With the key `:1}$${`, the end of the occurrence and the text `$${=x}` behind it form
the default form of that key, and the default pass comes first. -/
theorem Inject_substring_form_counterexample :
    (Inject specSubstitutors (braced (str "B") (str ":") (decimal 9))
        (some [(str "A", str "x"), (str "B", str "$$A")]) = str "x" ∧
      braced (str "B") (str ":") (decimal 9) = str "$$\x7bB:9\x7d" ∧
      takeChars 9 (str "$$A") = str "$$A" ∧
      str "x" ≠ str "$$A") ∧
    (Inject specSubstitutors (braced (str "A") (str ":") (decimal 1))
        (some [(str "A", str "v"), (str "\x7bA:1\x7d", str "y")]) = str "y" ∧
      takeChars 1 (str "v") = str "v" ∧
      str "y" ≠ str "v") ∧
    (Inject specSubstitutors (str "$$" ++ braced (str "A") (str ":") (decimal 1) ++ str "")
        (some [(str "A", str "A")]) = str "A" ∧
      takeChars 1 (str "A") = str "A" ∧
      str "A" ≠ str "$$" ++ str "A" ++ str "") ∧
    (Inject specSubstitutors
        (str "$$\x7bA=" ++ braced (str "B") (str ":") (decimal 1) ++ str "\x7d")
        (some [(str "A", str "v"), (str "B", str "w")]) = str "v" ∧
      ¬ takeChars 1 (str "w") <:+: str "v") ∧
    (Inject specSubstitutors
        (braced (str ":1\x7d$$\x7b") (str ":") (decimal 1) ++ str "$$\x7b=x\x7d")
        (some [(str ":1\x7d$$\x7b", str "v")]) = str "$$\x7b:1\x7dv" ∧
      Inject specSubstitutors (str "$$\x7b=x\x7d") (some [(str ":1\x7d$$\x7b", str "v")])
        = str "$$\x7b=x\x7d" ∧
      str "$$\x7b:1\x7dv" ≠ takeChars 1 (str "v") ++ str "$$\x7b=x\x7d") := by
  decide

/-- C17, as amended: for a map with `NAME`, a name, bound to `V`, a literal `PREFIX` with
balanced braces that holds no reference to `NAME`, and `$${NAME##PREFIX}` standing between
`pre` and `post`, `Inject` over the substitutors of the specification puts in place of the
occurrence what follows `PREFIX` in `V` when `V` starts with `PREFIX`, and `V` when it does
not, and keeps `pre`:
(1) for the text `pre`, occurrence, `post`, when all keys are names, `PREFIX` holds no
reference to a key that sorts before `NAME`, and `pre` followed by what is put in place is
settled for all keys (it holds no reference to a key, complete or begun at its end, and where
it ends in `"`, `post` does not begin with `$`): the output is `pre`, what is put in place, and
the output for `post`;
(2) for every text that is `pre`, occurrence, `post` when the turn of `NAME` comes, when `pre`
followed by what is put in place holds no reference to `NAME`: the output is what the passes
of the keys behind `NAME` make of `pre`, what is put in place, and what the passes of `NAME`
make of `post`; and when `pre` followed by what is put in place is also settled for the keys
behind `NAME`, the output is `pre`, what is put in place, and what the passes of `NAME` and of
the keys behind it make of `post`. -/
theorem Inject_strip_form (params : Params) (NAME V PREFIX pre post : GoString)
    (hwf : params.WF) (hN : IsName NAME) (hmem : (NAME, V) ∈ params.entries)
    (hbal : Balanced PREFIX) (hPN : Unreferenced NAME PREFIX) :
    ((∀ k ∈ params.entries.map Prod.fst, IsName k) →
      (∀ k ∈ params.entries.map Prod.fst, strLess k NAME = false → Unreferenced k PREFIX) →
      Settled (params.entries.map Prod.fst) (pre ++ trimHead PREFIX V) post →
      Inject specSubstitutors (pre ++ braced NAME (str "##") PREFIX ++ post) params
        = pre ++ trimHead PREFIX V ++ Inject specSubstitutors post params) ∧
    (∀ text, textAtTurn specSubstitutors params NAME text
          = pre ++ braced NAME (str "##") PREFIX ++ post →
      NoReference NAME (pre ++ trimHead PREFIX V) →
      Inject specSubstitutors text params
        = applyKeys specSubstitutors params (keysBehind params NAME)
            (pre ++ trimHead PREFIX V ++ applySubstitutors specSubstitutors post NAME V) ∧
      (Settled (keysBehind params NAME) (pre ++ trimHead PREFIX V) post →
        Inject specSubstitutors text params
          = pre ++ trimHead PREFIX V ++ passesFrom specSubstitutors params NAME post)) ∧
    (∀ rest, V = PREFIX ++ rest → trimHead PREFIX V = rest) ∧
    (¬ PREFIX <+: V → trimHead PREFIX V = V) := by
  have hkey : NAME ∈ params.entries.map Prod.fst := List.mem_map_of_mem Prod.fst hmem
  refine ⟨?_, ?_, ?_, ?_⟩
  · intro hnames hP hS
    exact Inject_at_occurrence params NAME V pre (str "##") PREFIX post (trimHead PREFIX V)
      hwf hnames hmem (by decide) hP hS
      (fun B => own_pass_strip NAME V PREFIX pre B hN hbal hPN (hS.1 NAME hkey))
  · intro text hturn href
    have hown := own_pass_strip NAME V PREFIX pre post hN hbal hPN href
    exact ⟨Inject_after_turn params NAME V pre _ post (trimHead PREFIX V) text hwf hmem hturn
        hown,
      fun hS => Inject_at_turn params NAME V pre _ post (trimHead PREFIX V) text hwf hmem hturn
        (settled_with_key NAME _ _ _ href hS) hown⟩
  · intro rest hrest
    unfold trimHead
    rw [hrest, stripHead_append]
  · intro hnp
    unfold trimHead
    rw [stripHead_eq_none_of_not_head PREFIX V hnp]

/-- The amended C17 on a text with a single `$` and two occurrences, the first that of the test
"Should handle nested substitution operations" (part 1, at the first occurrence, and at the
second one, whose prefix the value does not start with); on a text in which the pass of a key
before `TAG` has written the prefix when the turn of `TAG` comes, and on one in which the pass
of `REPO` follows that of `TAG` (part 2). -/
theorem Inject_strip_form_witness :
    (Inject specSubstitutors
        (str "cost $5 echo \"" ++ braced (str "TAG") (str "##") (str "v")
          ++ str "\" $$\x7bTAG##1.\x7d")
        (some [(str "TAG", str "v1.0.0")])
      = str "cost $5 echo \"" ++ trimHead (str "v") (str "v1.0.0")
          ++ Inject specSubstitutors (str "\" $$\x7bTAG##1.\x7d")
            (some [(str "TAG", str "v1.0.0")])
    ∧ trimHead (str "v") (str "v1.0.0") = str "1.0.0") ∧
    (Inject specSubstitutors
        (str "\" " ++ braced (str "TAG") (str "##") (str "1.") ++ str "")
        (some [(str "TAG", str "v1.0.0")])
      = str "\" " ++ trimHead (str "1.") (str "v1.0.0")
          ++ Inject specSubstitutors (str "") (some [(str "TAG", str "v1.0.0")])
    ∧ ¬ str "1." <+: str "v1.0.0"
    ∧ trimHead (str "1.") (str "v1.0.0") = str "v1.0.0") ∧
    Inject specSubstitutors (str "$$\x7bTAG##$$V\x7d")
        (some [(str "TAG", str "v1.0.0"), (str "V", str "v")])
      = str "" ++ trimHead (str "v") (str "v1.0.0")
          ++ passesFrom specSubstitutors (some [(str "TAG", str "v1.0.0"), (str "V", str "v")])
            (str "TAG") (str "") ∧
    (Inject specSubstitutors (str "$$REPO $$\x7bTAG##v\x7d")
        (some [(str "TAG", str "v1.0.0"), (str "REPO", str "r")])
      = applyKeys specSubstitutors (some [(str "TAG", str "v1.0.0"), (str "REPO", str "r")])
          (keysBehind (some [(str "TAG", str "v1.0.0"), (str "REPO", str "r")]) (str "TAG"))
          (str "$$REPO " ++ trimHead (str "v") (str "v1.0.0")
            ++ applySubstitutors specSubstitutors (str "") (str "TAG") (str "v1.0.0"))
    ∧ applyKeys specSubstitutors (some [(str "TAG", str "v1.0.0"), (str "REPO", str "r")])
          (keysBehind (some [(str "TAG", str "v1.0.0"), (str "REPO", str "r")]) (str "TAG"))
          (str "$$REPO " ++ trimHead (str "v") (str "v1.0.0")
            ++ applySubstitutors specSubstitutors (str "") (str "TAG") (str "v1.0.0"))
      = str "r 1.0.0") :=
  ⟨⟨(Inject_strip_form (some [(str "TAG", str "v1.0.0")]) (str "TAG") (str "v1.0.0") (str "v")
      (str "cost $5 echo \"") (str "\" $$\x7bTAG##1.\x7d") (by decide) (by decide) (by decide)
      (by decide) (by decide)).1 (by decide) (by decide) (by decide),
    (Inject_strip_form (some [(str "TAG", str "v1.0.0")]) (str "TAG") (str "v1.0.0") (str "v")
      (str "cost $5 echo \"") (str "\" $$\x7bTAG##1.\x7d") (by decide) (by decide) (by decide)
      (by decide) (by decide)).2.2.1 (str "1.0.0") (by decide)⟩,
    ⟨(Inject_strip_form (some [(str "TAG", str "v1.0.0")]) (str "TAG") (str "v1.0.0")
      (str "1.") (str "\" ") (str "") (by decide) (by decide) (by decide) (by decide)
      (by decide)).1 (by decide) (by decide) (by decide),
    by decide,
    (Inject_strip_form (some [(str "TAG", str "v1.0.0")]) (str "TAG") (str "v1.0.0")
      (str "1.") (str "\" ") (str "") (by decide) (by decide) (by decide) (by decide)
      (by decide)).2.2.2 (by decide)⟩,
    ((Inject_strip_form (some [(str "TAG", str "v1.0.0"), (str "V", str "v")]) (str "TAG")
      (str "v1.0.0") (str "v") (str "") (str "") (by decide) (by decide) (by decide)
      (by decide) (by decide)).2.1 (str "$$\x7bTAG##$$V\x7d") (by decide) (by decide)).2
      (by decide),
    ((Inject_strip_form (some [(str "TAG", str "v1.0.0"), (str "REPO", str "r")]) (str "TAG")
      (str "v1.0.0") (str "v") (str "$$REPO ") (str "") (by decide) (by decide) (by decide)
      (by decide) (by decide)).2.1 (str "$$REPO $$\x7bTAG##v\x7d") (by decide)
      (by decide)).1,
    by decide⟩

/-- C17, as stated, fails. With `B` bound to `v$$A` and `A` bound to `x`, the occurrence
`$${B##v}` is rewritten to the value of `B` without its leading `v`, and the passes of `A`,
which follow, rewrite that text: the output is `x`. With `B` bound to `v`, the pass of `B`
comes first and rewrites the prefix `$$B` of `$${A##$$B}`: the value `v1` of `A`, which does
not start with `$$B`, loses its `v`. With the key `{A##v}` in the map, its bare form is the
text `$${A##v}`, and its pass comes first. With `A` bound to `A`, the `$$` in front of the
occurrence and the value form `$$A`, which the bare pass rewrites. With `A` bound to `v1`, the
default pass comes first and rewrites the prefix `$${A=v}` of `$${A##$${A=v}}` to `v1`, which
the strip pass then removes from the value. With the key `##v}$${`, the end of the occurrence
and the text `$${=x}` behind it form the default form of that key, and the default pass comes
first. -/
theorem Inject_strip_form_counterexample :
    (Inject specSubstitutors (braced (str "B") (str "##") (str "v"))
        (some [(str "A", str "x"), (str "B", str "v$$A")]) = str "x" ∧
      braced (str "B") (str "##") (str "v") = str "$$\x7bB##v\x7d" ∧
      str "v$$A" = str "v" ++ str "$$A" ∧
      str "x" ≠ str "$$A") ∧
    (Inject specSubstitutors (braced (str "A") (str "##") (str "$$B"))
        (some [(str "A", str "v1"), (str "B", str "v")]) = str "1" ∧
      ¬ str "$$B" <+: str "v1" ∧
      str "1" ≠ str "v1") ∧
    (Inject specSubstitutors (braced (str "A") (str "##") (str "v"))
        (some [(str "A", str "v1"), (str "\x7bA##v\x7d", str "y")]) = str "y" ∧
      str "v1" = str "v" ++ str "1" ∧
      str "y" ≠ str "1") ∧
    (Inject specSubstitutors (str "$$" ++ braced (str "A") (str "##") (str "x") ++ str "")
        (some [(str "A", str "A")]) = str "A" ∧
      ¬ str "x" <+: str "A" ∧
      str "A" ≠ str "$$" ++ str "A" ++ str "") ∧
    (Inject specSubstitutors (braced (str "A") (str "##") (braced (str "A") (str "=") (str "v")))
        (some [(str "A", str "v1")]) = str "" ∧
      ¬ braced (str "A") (str "=") (str "v") <+: str "v1" ∧
      str "" ≠ str "v1") ∧
    (Inject specSubstitutors
        (braced (str "##v\x7d$$\x7b") (str "##") (str "v") ++ str "$$\x7b=x\x7d")
        (some [(str "##v\x7d$$\x7b", str "v1")]) = str "$$\x7b##v\x7dv1" ∧
      Inject specSubstitutors (str "$$\x7b=x\x7d") (some [(str "##v\x7d$$\x7b", str "v1")])
        = str "$$\x7b=x\x7d" ∧
      str "$$\x7b##v\x7dv1" ≠ str "1" ++ str "$$\x7b=x\x7d") := by
  decide

end DroneExec
